import Mathlib

/-!
Shallow embedding of the cutting-stock optimizer in
`app/optimizer/optimizer.py` (`optimize_boards` and its helpers
`_generate_cutting_patterns`, `_pack_cuts_into_boards`).

Numbers: the Python code accepts ints (the tests and the spec use integers
throughout), so lengths, quantities and prices are modelled as `Int`.
Python dicts keyed by board index / cut length are modelled as association
lists in insertion order.  The external ILP backend (ortools) is modelled as
an oracle parameter `solver : ILPProblem → Option ((Nat × Nat) → Nat)`;
`SolverOk` states exactly what the code may rely on after a successful
solve: the returned values are within the declared variable bounds and
satisfy the equality constraints (the code accepts both OPTIMAL and
FEASIBLE statuses, so optimality is not assumed).
-/

/-- One cut request: `{"width": w, "height": h, "length": l, "quantity": q}`. -/
structure Cut where
  width : Int
  height : Int
  length : Int
  quantity : Int
  deriving DecidableEq, Repr

/-- One purchasable board type: `{"width": w, "height": h, "length": l, "price": p}`. -/
structure Board where
  width : Int
  height : Int
  length : Int
  price : Int
  deriving DecidableEq, Repr

/-- The `RuntimeError`s `optimize_boards` can raise, with the data each
message carries (cross-section `w×h`, offending lengths). -/
inductive OptError where
  | noBoardsForDimension (w h : Int)
  | cutExceedsMaxBoard (cutLen maxLen w h : Int)
  | noPatterns (w h : Int)
  | noPatternForLength (len w h : Int)
  | noFeasiblePlan (w h : Int)
  deriving DecidableEq, Repr

/-- The result dict of `optimize_boards`. -/
structure OptResult where
  boardPlan : List (Nat × Nat)
  cutPlan : List (Nat × List (List Int))
  totalCost : Int
  wasteSummary : List (Nat × Int)
  deriving DecidableEq, Repr

/-- `dct.get(k, d)` on an association list. -/
def lookupD {κ α : Type} [DecidableEq κ] (l : List (κ × α)) (k : κ) (d : α) : α :=
  match l with
  | [] => d
  | (k', v) :: rest => if k' = k then v else lookupD rest k d

/-- `dct[k] = f(dct.get(k, d))` on an association list: updates the first
entry with key `k` in place, or appends a fresh entry (Python dicts keep
the position of an existing key and append new keys). -/
def updList {κ α : Type} [DecidableEq κ] (l : List (κ × α)) (k : κ) (f : α → α) (d : α) :
    List (κ × α) :=
  match l with
  | [] => [(k, f d)]
  | (k', v) :: rest => if k' = k then (k', f v) :: rest else (k', v) :: updList rest k f d

/-- Python `max` over a list of ints (`0` is never used: the code only calls
`max` on non-empty generators). -/
def pythonMax : List Int → Int
  | [] => 0
  | x :: xs => xs.foldl max x

/-- Non-increasing order on `Int`, the key order of `sorted(xs, reverse=True)`. -/
def geInt (a b : Int) : Prop := b ≤ a

instance : DecidableRel geInt := fun a b => inferInstanceAs (Decidable (b ≤ a))

instance : IsTotal Int geInt := ⟨fun a b => (le_total b a).imp id id⟩

instance : IsTrans Int geInt := ⟨fun _ _ _ h h2 => le_trans h2 h⟩

instance : IsAntisymm Int geInt := ⟨fun _ _ h h2 => le_antisymm h2 h⟩

/-- Descending sort, as `sorted(xs, reverse=True)`.  Python's sort is stable;
`insertionSort` with this reflexive order is also stable (an element is
inserted before the first element it is `≥`, i.e. before later-listed equal
keys), so the two agree. -/
def sortDesc (l : List Int) : List Int :=
  l.insertionSort geInt

/-- A cutting pattern `{cut_length: count}` is represented by its multiset of
lengths listed in non-increasing order (the enumeration below only ever
appends lengths at a non-decreasing cursor into the descending length list,
so the dict's key order is exactly this order and counts are adjacent). -/
abbrev Pattern := List Int

/-- The `for i in range(start_idx, len(cut_lengths_sorted))` loop of
`generate_recursive`: `ps` is the remaining `(index, length)` pairs, `step`
is the recursive call one fuel level down. -/
def genLoop (step : Int → Pattern → Nat → List Pattern → List Pattern)
    (remaining : Int) (current : Pattern) :
    List (Nat × Int) → List Pattern → List Pattern
  | [], acc => acc
  | (i, c) :: rest, acc =>
    genLoop step remaining current rest
      (if c ≤ remaining then step (remaining - c) (current ++ [c]) i acc else acc)

/-- `generate_recursive(remaining_length, current_pattern, start_idx)`.
`fuel` bounds the nesting depth only (each nested call below the root
appends a pattern before recursing further, so depth never exceeds
`max_patterns + 2`; the fuel is chosen accordingly at the call site and is
never exhausted). -/
def genRec (lens : List Int) (maxP : Nat) :
    Nat → Int → Pattern → Nat → List Pattern → List Pattern
  | 0, _, _, _, acc => acc
  | fuel + 1, remaining, current, start, acc =>
    if maxP ≤ acc.length then acc
    else
      genLoop (genRec lens maxP fuel) remaining current (lens.enum.drop start)
        (if current.isEmpty then acc else acc ++ [current])

/-- Sum of `k * v` over a pattern dict = sum of its length list. -/
def patternMaterial (p : Pattern) : Int := p.sum

/-- The key order of the final `patterns.sort(key=..., reverse=True)`:
material used, descending.  Stability again matches Python's stable sort. -/
def matGe (p q : Pattern) : Prop := patternMaterial q ≤ patternMaterial p

instance : DecidableRel matGe :=
  fun p q => inferInstanceAs (Decidable (patternMaterial q ≤ patternMaterial p))

instance : IsTotal Pattern matGe := ⟨fun a b => (le_total (patternMaterial b) (patternMaterial a)).imp id id⟩

instance : IsTrans Pattern matGe := ⟨fun _ _ _ h h2 => le_trans h2 h⟩

/-- `_generate_cutting_patterns(cut_lengths, board_length, max_patterns=1000)`. -/
def generateCuttingPatterns (cutLengths : List Int) (boardLength : Int)
    (maxPatterns : Nat := 1000) : List Pattern :=
  let sortedLens := sortDesc cutLengths.dedup
  let raw := genRec sortedLens maxPatterns (maxPatterns + 2) boardLength [] 0 []
  raw.insertionSort matGe

/-- The best-fit scan of `_pack_cuts_into_boards`: smallest non-negative
remaining space after placing `cut`, earliest board winning ties
(`remaining_after < best_remaining` is strict). Returns the chosen index. -/
def findBestFit (cut : Int) (boards : List (Int × List Int)) : Option (Nat × Int) :=
  boards.enum.foldl
    (fun best idxb =>
      let ra := idxb.2.1 - cut
      let beats := match best with
        | none => true
        | some br => decide (ra < br.2)
      if 0 ≤ ra ∧ beats = true then some (idxb.1, ra) else best)
    none

/-- Place `cut` on the board at index `i` (subtract from remaining space,
append to its cut list). -/
def placeAt (cut : Int) : List (Int × List Int) → Nat → List (Int × List Int)
  | [], _ => []
  | b :: bs, 0 => (b.1 - cut, b.2 ++ [cut]) :: bs
  | b :: bs, n + 1 => b :: placeAt cut bs n

/-- One iteration of the packing loop body. -/
def packStep (boardLength : Int) (boards : List (Int × List Int)) (cut : Int) :
    List (Int × List Int) :=
  match findBestFit cut boards with
  | some (i, _) => placeAt cut boards i
  | none => boards ++ [(boardLength - cut, [cut])]

/-- `_pack_cuts_into_boards(cuts_list, board_length)`. -/
def packCutsIntoBoards (cutsList : List Int) (boardLength : Int) : List (List Int) :=
  if cutsList.isEmpty then []
  else
    ((sortDesc cutsList).foldl (packStep boardLength) []).map Prod.snd

/-- First-occurrence deduplication: Python dict keys appear in the order a
key was first inserted (Mathlib's `List.dedup` keeps last occurrences, which
would process the groups in the wrong order). -/
def firstKeys {α : Type} [DecidableEq α] : List α → List α
  | [] => []
  | x :: xs => x :: (firstKeys xs).filter fun y => y ≠ x

/-- Grouping key `(width, height)`; Python dict keys in first-appearance order. -/
def crossSections (cuts : List Cut) : List (Int × Int) :=
  firstKeys (cuts.map fun c => (c.width, c.height))

/-- The cuts of one cross-section group, in input order. -/
def groupCuts (cuts : List Cut) (d : Int × Int) : List Cut :=
  cuts.filter fun c => (c.width, c.height) = d

/-- The `(index, board)` pairs of one cross-section group, in input order. -/
def groupBoards (boards : List Board) (d : Int × Int) : List (Nat × Board) :=
  boards.enum.filter fun ib => (ib.2.width, ib.2.height) = d

/-- `cut_requirements`: length → summed quantity, keys in first-appearance order. -/
def cutRequirements (gcuts : List Cut) : List (Int × Int) :=
  gcuts.foldl (fun acc c => updList acc c.length (· + c.quantity) 0) []

/-- `board_patterns`: board index → its non-empty pattern list. -/
def boardPatterns (gboards : List (Nat × Board)) (lens : List Int) :
    List (Nat × List Pattern) :=
  (gboards.map fun ib => (ib.1, generateCuttingPatterns lens ib.2.length)).filter
    fun x => ¬x.2.isEmpty

/-- The `max_uses` bound computed per pattern (Python `//` is floor division,
hence `Int.fdiv`; `pattern.get(cut_len, 1)` over `pattern.keys()` is just the
count, which is ≥ 1). -/
def maxUses (req : List (Int × Int)) (p : Pattern) : Int :=
  if p.isEmpty then 0
  else
    pythonMax (p.dedup.map fun k =>
      Int.fdiv (lookupD req k 0 + (p.count k : Int) - 1) (p.count k))

/-- The ILP model handed to the external solver: variables with their upper
bounds (lower bound 0 is implicit in the `Nat`-valued assignment), equality
constraints `Σ var·coeff = rhs`, and the minimized objective `Σ var·price`. -/
structure ILPProblem where
  vars : List ((Nat × Nat) × Int)
  constraints : List (List ((Nat × Nat) × Nat) × Int)
  objective : List ((Nat × Nat) × Int)
  deriving DecidableEq, Repr

/-- Variable list `pattern_vars` in dict order with bounds `max_uses * 2`. -/
def patternVars (req : List (Int × Int)) (bp : List (Nat × List Pattern)) :
    List ((Nat × Nat) × Int) :=
  bp.flatMap fun bips => bips.2.enum.map fun pip => ((bips.1, pip.1), maxUses req pip.2 * 2)

/-- The non-zero terms of the constraint for one cut length, in variable order. -/
def constraintTerms (bp : List (Nat × List Pattern)) (len : Int) :
    List ((Nat × Nat) × Nat) :=
  bp.flatMap fun bips =>
    bips.2.enum.filterMap fun pip =>
      let c := pip.2.count len
      if 0 < c then some ((bips.1, pip.1), c) else none

/-- Build the equality constraints in `cut_requirements` order, failing with
`NoPatternForLength` on the first length no pattern can produce. -/
def buildConstraints (d : Int × Int) (bp : List (Nat × List Pattern)) :
    List (Int × Int) → Except OptError (List (List ((Nat × Nat) × Nat) × Int))
  | [] => .ok []
  | (len, qty) :: rest =>
    let terms := constraintTerms bp len
    if terms.isEmpty then .error (.noPatternForLength len d.1 d.2)
    else do
      let cs ← buildConstraints d bp rest
      .ok ((terms, qty) :: cs)

instance : Inhabited Board := ⟨⟨0, 0, 0, 0⟩⟩

/-- `next(b for idx, b in group_boards if idx == board_idx)`; the generator
never fails on the reachable calls (the index always comes from the group). -/
def lookupBoard (gboards : List (Nat × Board)) (bi : Nat) : Board :=
  match gboards.find? fun ib => ib.1 = bi with
  | some ib => ib.2
  | none => default

/-- Objective coefficients: the price of the owning board per variable. -/
def objectiveTerms (req : List (Int × Int)) (bp : List (Nat × List Pattern))
    (gboards : List (Nat × Board)) : List ((Nat × Nat) × Int) :=
  (patternVars req bp).map fun vb => (vb.1, (lookupBoard gboards vb.1.1).price)

/-- Expansion of one used pattern: `[cut_len] * (count * times_used)` per key. -/
def flattenPattern (p : Pattern) (t : Nat) : List Int :=
  p.dedup.flatMap fun k => List.replicate (p.count k * t) k

/-- `cuts_for_this_board_type` for one board type under a solved assignment. -/
def cutsForType (a : (Nat × Nat) → Nat) (bi : Nat) (pats : List Pattern) : List Int :=
  pats.enum.flatMap fun pip => flattenPattern pip.2 (a (bi, pip.1))

/-- Post-solve bookkeeping for one board type: pack its cuts, then update the
four running outputs exactly as the Python loop body does. -/
def applyBoardType (gboards : List (Nat × Board)) (a : (Nat × Nat) → Nat)
    (st : OptResult) (bips : Nat × List Pattern) : OptResult :=
  let bi := bips.1
  let cfb := cutsForType a bi bips.2
  if cfb.isEmpty then st
  else
    let board := lookupBoard gboards bi
    let packed := packCutsIntoBoards cfb board.length
    let used := packed.length
    { boardPlan := updList st.boardPlan bi (· + used) 0
      cutPlan := updList st.cutPlan bi (· ++ packed) []
      totalCost := st.totalCost + used * board.price
      wasteSummary :=
        updList st.wasteSummary bi
          (· + (packed.map fun cs => board.length - cs.sum).sum) 0 }

/-- One iteration of the `for dim, group_cuts in cut_groups.items()` loop. -/
def processGroup (cuts : List Cut) (boards : List Board)
    (solver : ILPProblem → Option ((Nat × Nat) → Nat))
    (st : OptResult) (d : Int × Int) : Except OptError OptResult :=
  let gcuts := groupCuts cuts d
  let gboards := groupBoards boards d
  if gboards.isEmpty then .error (.noBoardsForDimension d.1 d.2)
  else
    let maxLen := pythonMax (gboards.map fun ib => ib.2.length)
    match gcuts.find? fun c => decide (maxLen < c.length) with
    | some c => .error (.cutExceedsMaxBoard c.length maxLen d.1 d.2)
    | none =>
      let req := cutRequirements gcuts
      let lens := req.map Prod.fst
      let bp := boardPatterns gboards lens
      if bp.isEmpty then .error (.noPatterns d.1 d.2)
      else
        match buildConstraints d bp req with
        | .error e => .error e
        | .ok cons =>
          match solver ⟨patternVars req bp, cons, objectiveTerms req bp gboards⟩ with
          | none => .error (.noFeasiblePlan d.1 d.2)
          | some a => .ok (bp.foldl (applyBoardType gboards a) st)

/-- `optimize_boards(cuts, boards)`, with the external ILP capability passed
in as `solver`. -/
def optimizeBoards (cuts : List Cut) (boards : List Board)
    (solver : ILPProblem → Option ((Nat × Nat) → Nat)) : Except OptError OptResult :=
  (crossSections cuts).foldlM (fun st d => processGroup cuts boards solver st d)
    ⟨[], [], 0, []⟩

/-- What a successful solve guarantees: every variable within its declared
bounds and every equality constraint met. -/
def Feasible (p : ILPProblem) (a : (Nat × Nat) → Nat) : Prop :=
  (∀ vb ∈ p.vars, (a vb.1 : Int) ≤ vb.2) ∧
    ∀ con ∈ p.constraints, (con.1.map fun tc => ((a tc.1 * tc.2 : Nat) : Int)).sum = con.2

instance (p : ILPProblem) (a : (Nat × Nat) → Nat) : Decidable (Feasible p a) := by
  unfold Feasible; infer_instance

/-- A solver oracle is admissible when anything it returns is feasible (the
code accepts both OPTIMAL and FEASIBLE termination statuses). -/
def SolverOk (solver : ILPProblem → Option ((Nat × Nat) → Nat)) : Prop :=
  ∀ p a, solver p = some a → Feasible p a

/-- Price of the board at a given index of the input sequence. -/
def priceAt (boards : List Board) (i : Nat) : Int :=
  ((boards[i]?).map Board.price).getD 0

/-- Length of the board at a given index of the input sequence. -/
def lengthAt (boards : List Board) (i : Nat) : Int :=
  ((boards[i]?).map Board.length).getD 0

/-- The ILP model `optimize_boards` hands to the solver for group `d`
(empty constraint list in the unreachable error case); used to key the
concrete solver oracles below. -/
def probOf (cuts : List Cut) (boards : List Board) (d : Int × Int) : ILPProblem :=
  let gcuts := groupCuts cuts d
  let gboards := groupBoards boards d
  let req := cutRequirements gcuts
  let bp := boardPatterns gboards (req.map Prod.fst)
  ⟨patternVars req bp, ((buildConstraints d bp req).toOption).getD [],
    objectiveTerms req bp gboards⟩

/-- Invariants of an activation record of `generate_recursive` over the
descending distinct length list `lens` and board length `L`. -/
structure GenInv (L : Int) (lens : List Int) (remaining : Int) (cur : Pattern)
    (start : Nat) : Prop where
  rem_eq : remaining = L - cur.sum
  rem_nonneg : cur ≠ [] → 0 ≤ remaining
  sorted : cur.Sorted geInt
  le_board : ∀ x ∈ cur, x ≤ L
  mem_lens : ∀ x ∈ cur, x ∈ lens
  future_le : ∀ q ∈ lens.enum, start ≤ q.1 → ∀ x ∈ cur, q.2 ≤ x

/-- What holds of every emitted pattern. -/
structure GoodPat (L : Int) (lens : List Int) (p : Pattern) : Prop where
  ne : p ≠ []
  sum_le : p.sum ≤ L
  sorted : p.Sorted geInt
  le_board : ∀ x ∈ p, x ≤ L
  mem_lens : ∀ x ∈ p, x ∈ lens

/- Evaluation-friendly clones.  The embedding above mirrors the Python
control flow literally, which is convenient for reasoning but hopeless for
closed-term evaluation once the 1000-pattern cap is in play: the
accumulator and the running count are recomputed from deeply nested
thunks.  The `R`-suffixed clones below thread the pattern count
explicitly, keep the accumulator reversed (emission is a `cons`) and
force every intermediate state eagerly.  They are proved pointwise equal
to the original enumeration and are used only to evaluate the concrete
cap-truncation counterexample. -/

/-- Clone of `genLoop` threading the pattern count and forcing the state
returned by the recursive call before continuing the iteration. -/
def genLoopR (stepR : Int → Pattern → Nat → List Pattern → Nat → (List Pattern × Nat))
    (remaining : Int) (current : Pattern) :
    List (Nat × Int) → List Pattern → Nat → (List Pattern × Nat)
  | [], racc, n => (racc, n)
  | (i, c) :: rest, racc, n =>
    if c ≤ remaining then
      match stepR (remaining - c) (current ++ [c]) i racc n with
      | (racc2, n2) => genLoopR stepR remaining current rest racc2 n2
    else genLoopR stepR remaining current rest racc n

/-- Clone of `genRec` with the accumulator reversed and the length carried
as an explicit counter. -/
def genRecR (lens : List Int) (maxP : Nat) :
    Nat → Int → Pattern → Nat → List Pattern → Nat → (List Pattern × Nat)
  | 0, _, _, _, racc, n => (racc, n)
  | fuel + 1, remaining, current, start, racc, n =>
    if maxP ≤ n then (racc, n)
    else
      genLoopR (genRecR lens maxP fuel) remaining current (lens.enum.drop start)
        (if current.isEmpty then racc else current :: racc)
        (if current.isEmpty then n else n + 1)

/- Concrete instances used by witnesses and counterexamples. -/

/-- A solver oracle that always reports infeasibility. -/
def noSolver : ILPProblem → Option ((Nat × Nat) → Nat) := fun _ => none

/-- Witness input: one 1×1 cut of length 2, one 1×1 board of length 2, price 5. -/
def cutsW : List Cut := [⟨1, 1, 2, 1⟩]

def boardsW : List Board := [⟨1, 1, 2, 5⟩]

/-- Oracle answering exactly the model built for the witness input (one
variable used once; feasible, indeed optimal). -/
def solverW : ILPProblem → Option ((Nat × Nat) → Nat) := fun p =>
  if p = probOf cutsW boardsW (1, 1) then some fun _ => 1 else none

/-- The result `optimize_boards` returns on the witness input. -/
def resW : OptResult := ⟨[(0, 1)], [(0, [[2]])], 5, [(0, 0)]⟩

/-- C3 counterexample input: a single cut request with quantity 0. -/
def cutsZeroQty : List Cut := [⟨1, 1, 5, 0⟩]

def boardsZeroQty : List Board := [⟨1, 1, 10, 2⟩]

/-- Oracle for the quantity-0 model: the all-zero assignment (feasible: the
single constraint has right-hand side 0). -/
def solverZeroQty : ILPProblem → Option ((Nat × Nat) → Nat) := fun p =>
  if p = probOf cutsZeroQty boardsZeroQty (1, 1) then some fun _ => 0 else none

/-- C7 base input: cuts 5×1, 4×2, 3×1, 2×2 (cross-section 1×1). -/
def cutsBase : List Cut := [⟨1, 1, 5, 1⟩, ⟨1, 1, 4, 2⟩, ⟨1, 1, 3, 1⟩, ⟨1, 1, 2, 2⟩]

/-- C7 input with the quantity of the length-2 cut increased by one. -/
def cutsMore : List Cut := [⟨1, 1, 5, 1⟩, ⟨1, 1, 4, 2⟩, ⟨1, 1, 3, 1⟩, ⟨1, 1, 2, 3⟩]

/-- C7 boards: type 0 of length 10 at price 100, type 1 of length 22 at 201. -/
def boardsMono : List Board := [⟨1, 1, 10, 100⟩, ⟨1, 1, 22, 201⟩]

/-- The unique minimum-cost assignment for the base input: board type 0 with
pattern `[5,3,2]` (index 1 of its sorted pattern list) once and pattern
`[4,4,2]` (index 2) once — total demand 5+4+4+3+2+2 = 20 fits no cheaper
combination (2 × price 100 < any plan touching board 1 at price 201). -/
def aBase : (Nat × Nat) → Nat := fun k =>
  if k = (0, 1) then 1 else if k = (0, 2) then 1 else 0

/-- The unique minimum-cost assignment after the increase: the demand now
sums to 22, so two type-0 boards no longer suffice and one type-1 board cut
with the full pattern `[5,4,4,3,2,2,2]` (index 12) at price 201 is optimal. -/
def aMore : (Nat × Nat) → Nat := fun k => if k = (1, 12) then 1 else 0

/-- Oracle returning those two optimal assignments. -/
def solverMono : ILPProblem → Option ((Nat × Nat) → Nat) := fun p =>
  if p = probOf cutsBase boardsMono (1, 1) then some aBase
  else if p = probOf cutsMore boardsMono (1, 1) then some aMore
  else none

/-- Result on the base input: the solver's two boards are flattened to the
bag `[5,4,4,3,2,2]` and best-fit-decreasing re-packs it into three boards. -/
def resBase : OptResult := ⟨[(0, 3)], [(0, [[5, 4], [4, 3, 2], [2]])], 300, [(0, 10)]⟩

/-- Result after the increase: one board of type 1. -/
def resMore : OptResult := ⟨[(1, 1)], [(1, [[5, 4, 4, 3, 2, 2, 2]])], 201, [(1, 0)]⟩

/-- C5 counterexample cuts: required lengths 1000 (the starved one), 1001,
and the powers 512 down to 8; all of cross-section 1×1. -/
def cutsTrunc : List Cut :=
  [⟨1, 1, 1000, 1⟩, ⟨1, 1, 1001, 1⟩, ⟨1, 1, 512, 1⟩, ⟨1, 1, 256, 1⟩,
    ⟨1, 1, 128, 1⟩, ⟨1, 1, 64, 1⟩, ⟨1, 1, 32, 1⟩, ⟨1, 1, 16, 1⟩, ⟨1, 1, 8, 1⟩]

/-- One board of length 2000: every cut fits it, yet the enumeration dives
into the subtree of patterns containing 1001 first (1001 is the largest
length), where the remaining 999 units are filled so richly by the powers
of two that the 1000-pattern cap is reached inside that subtree — so no
generated pattern ever contains the still-valid length 1000. -/
def boardsTrunc : List Board := [⟨1, 1, 2000, 1⟩]

/-- The raw (unsorted) pattern list the enumeration produces for that group:
`genRec` over the descending distinct lengths of `cutsTrunc` with the
1000-pattern cap and the board length 2000. -/
def rawTrunc : List Pattern :=
  genRec [1001, 1000, 512, 256, 128, 64, 32, 16, 8] 1000 (1000 + 2) 2000 [] 0 []

/-- C8 counterexample: the 1×1 group (first in appearance order) has no
boards, while the 2×2 cut of length 100 exceeds its group's maximum 50. -/
def cutsX : List Cut := [⟨1, 1, 5, 1⟩, ⟨2, 2, 100, 1⟩]

def boardsX : List Board := [⟨2, 2, 50, 7⟩]

/-- State invariant of the packing loop: every open board records its true
remaining space, which never goes negative, and carries at least one cut. -/
def PackInv (L : Int) (st : List (Int × List Int)) : Prop :=
  ∀ b ∈ st, b.1 = L - b.2.sum ∧ 0 ≤ b.1 ∧ b.2 ≠ []

/-- C8 amended-claim witness input: a single 2×2 cut of length 100 (its group
is first and has an offering of max length 50). -/
def cutsY : List Cut := [⟨2, 2, 100, 1⟩]

/-- Running invariant of the result accumulator across the group loop:
cost accounting, per-board feasibility, non-negative waste, aligned keys,
and positive purchase counts. -/
structure StInv (boards : List Board) (st : OptResult) : Prop where
  cost_eq : st.totalCost = (st.boardPlan.map fun e => (e.2 : Int) * priceAt boards e.1).sum
  plans_ok : ∀ e ∈ st.cutPlan, ∀ cs ∈ e.2, cs.sum ≤ lengthAt boards e.1 ∧ cs ≠ []
  waste_ok : ∀ e ∈ st.wasteSummary, 0 ≤ e.2
  keys_bc : st.boardPlan.map Prod.fst = st.cutPlan.map Prod.fst
  keys_cw : st.cutPlan.map Prod.fst = st.wasteSummary.map Prod.fst
  plan_pos : ∀ e ∈ st.boardPlan, 0 < e.2
  align : ∀ i, lookupD st.boardPlan i 0 = (lookupD st.cutPlan i []).length

/-! ### Generic helper lemmas -/

theorem mem_firstKeys {α : Type} [DecidableEq α] :
    ∀ (l : List α) (y : α), y ∈ firstKeys l ↔ y ∈ l := by
  intro l
  induction l with
  | nil => intro y; simp [firstKeys]
  | cons x xs ih =>
    intro y
    rw [firstKeys]
    constructor
    · intro h
      rcases List.mem_cons.1 h with h2 | h2
      · simp [h2]
      · have h3 := (ih y).1 (List.mem_of_mem_filter h2)
        exact List.mem_cons.2 (Or.inr h3)
    · intro h
      rcases List.mem_cons.1 h with h2 | h2
      · simp [h2]
      · by_cases hyx : y = x
        · simp [hyx]
        · refine List.mem_cons.2 (Or.inr ?_)
          exact List.mem_filter.2 ⟨(ih y).2 h2, by simpa using hyx⟩

theorem firstKeys_nodup {α : Type} [DecidableEq α] : ∀ l : List α, (firstKeys l).Nodup := by
  intro l
  induction l with
  | nil => simp [firstKeys]
  | cons x xs ih =>
    rw [firstKeys]
    refine List.nodup_cons.2 ⟨?_, ih.filter _⟩
    intro hmem
    have h2 := List.mem_filter.1 hmem
    simp at h2

theorem lookupD_updList_self {κ α : Type} [DecidableEq κ] (l : List (κ × α)) (k : κ)
    (f : α → α) (d : α) : lookupD (updList l k f d) k d = f (lookupD l k d) := by
  induction l with
  | nil => simp [lookupD, updList]
  | cons hd tl ih =>
    obtain ⟨k', v⟩ := hd
    by_cases h : k' = k <;> simp [lookupD, updList, h, ih]

theorem lookupD_updList_other {κ α : Type} [DecidableEq κ] (l : List (κ × α)) (k k2 : κ)
    (f : α → α) (d : α) (hne : k ≠ k2) :
    lookupD (updList l k f d) k2 d = lookupD l k2 d := by
  induction l with
  | nil => simp [lookupD, updList, hne]
  | cons hd tl ih =>
    obtain ⟨k', v⟩ := hd
    by_cases h : k' = k
    · subst h; simp [lookupD, updList, hne]
    · simp [lookupD, updList, h, ih]

theorem updList_keys_of_mem {κ α : Type} [DecidableEq κ] (l : List (κ × α)) (k : κ)
    (f : α → α) (d : α) (h : k ∈ l.map Prod.fst) :
    (updList l k f d).map Prod.fst = l.map Prod.fst := by
  induction l with
  | nil => simp at h
  | cons hd tl ih =>
    obtain ⟨k', v⟩ := hd
    by_cases hk : k' = k
    · simp [updList, hk]
    · have : k ∈ tl.map Prod.fst := by
        simpa [hk, Ne.symm hk] using h
      simp [updList, hk, ih this]

theorem updList_keys_of_not_mem {κ α : Type} [DecidableEq κ] (l : List (κ × α)) (k : κ)
    (f : α → α) (d : α) (h : k ∉ l.map Prod.fst) :
    (updList l k f d).map Prod.fst = l.map Prod.fst ++ [k] := by
  induction l with
  | nil => simp [updList]
  | cons hd tl ih =>
    obtain ⟨k', v⟩ := hd
    have hk : k' ≠ k := by
      intro hkk; exact h (by simp [hkk])
    have : k ∉ tl.map Prod.fst := by
      intro hm; exact h (by simp [hm])
    simp [updList, hk, ih this]

theorem mem_updList {κ α : Type} [DecidableEq κ] (l : List (κ × α)) (k : κ)
    (f : α → α) (d : α) (e : κ × α) (h : e ∈ updList l k f d) :
    e ∈ l ∨ (e.1 = k ∧ (e.2 = f (lookupD l k d))) := by
  induction l with
  | nil =>
    simp [updList] at h
    subst h; simp [lookupD]
  | cons hd tl ih =>
    obtain ⟨k', v⟩ := hd
    by_cases hk : k' = k
    · subst hk
      simp [updList] at h
      rcases h with h | h
      · right; subst h; simp [lookupD]
      · left; simp [h]
    · simp [updList, hk] at h
      rcases h with h | h
      · left; simp [h]
      · rcases ih h with h2 | h2
        · left; simp [h2]
        · right; simpa [lookupD, hk] using h2

theorem foldl_max_mem : ∀ (xs : List Int) (a : Int), xs.foldl max a ∈ a :: xs := by
  intro xs
  induction xs with
  | nil => intro a; simp
  | cons y ys ih =>
    intro a
    rw [List.foldl_cons]
    rcases List.mem_cons.1 (ih (max a y)) with hm | hm
    · rw [hm]
      rcases max_choice a y with hc | hc <;> rw [hc] <;> simp
    · simp [hm]

theorem le_foldl_max : ∀ (xs : List Int) (a : Int),
    a ≤ xs.foldl max a ∧ ∀ x ∈ xs, x ≤ xs.foldl max a := by
  intro xs
  induction xs with
  | nil => intro a; simp
  | cons y ys ih =>
    intro a
    refine ⟨le_trans (le_max_left a y) (ih (max a y)).1, ?_⟩
    intro x hx
    rcases List.mem_cons.1 hx with hx2 | hx2
    · subst hx2
      exact le_trans (le_max_right a x) (ih (max a x)).1
    · exact (ih (max a y)).2 x hx2

theorem pythonMax_mem (l : List Int) (h : l ≠ []) : pythonMax l ∈ l := by
  match l with
  | x :: xs => simpa [pythonMax] using foldl_max_mem xs x

theorem le_pythonMax (l : List Int) (x : Int) (h : x ∈ l) : x ≤ pythonMax l := by
  match l with
  | y :: ys =>
    rcases List.mem_cons.1 h with h2 | h2
    · subst h2; exact (le_foldl_max ys x).1
    · exact (le_foldl_max ys y).2 x h2

/-! ### Pattern generator: invariants -/

theorem mem_enum_drop {α : Type} {l : List α} {s : Nat} {q : Nat × α}
    (h : q ∈ l.enum.drop s) : q ∈ l.enum ∧ s ≤ q.1 := by
  refine ⟨List.mem_of_mem_drop h, ?_⟩
  rcases List.mem_iff_getElem?.1 h with ⟨k, hk⟩
  rw [List.getElem?_drop, List.getElem?_enum] at hk
  rcases Option.map_eq_some'.1 hk with ⟨a, _, ha2⟩
  simp [← ha2]

theorem enum_snd_mem {α : Type} {l : List α} {q : Nat × α} (h : q ∈ l.enum) : q.2 ∈ l := by
  rw [List.mem_enum_iff_getElem?] at h
  exact List.getElem?_mem h

theorem sorted_enum_le {l : List Int} (hs : l.Sorted geInt) {q r : Nat × Int}
    (hq : q ∈ l.enum) (hr : r ∈ l.enum) (hij : q.1 ≤ r.1) : r.2 ≤ q.2 := by
  rw [List.mem_enum_iff_getElem?] at hq hr
  rcases List.getElem?_eq_some.1 hq with ⟨hq1, hq2⟩
  rcases List.getElem?_eq_some.1 hr with ⟨hr1, hr2⟩
  rcases lt_or_eq_of_le hij with hlt | heq
  · have := (List.pairwise_iff_getElem.1 hs) q.1 r.1 hq1 hr1 hlt
    rw [hq2, hr2] at this
    exact this
  · rw [← hq2, ← hr2]
    simp [heq]

theorem genInv_child {L : Int} {lens : List Int} {r : Int} {cur : Pattern} {start : Nat}
    (hs : lens.Sorted geInt) (inv : GenInv L lens r cur start) {i : Nat} {c : Int}
    (hq : (i, c) ∈ lens.enum) (hi : start ≤ i) (hc : c ≤ r) :
    GenInv L lens (r - c) (cur ++ [c]) i := by
  have hcur_c : ∀ x ∈ cur, c ≤ x := inv.future_le (i, c) hq hi
  have hcL : c ≤ L := by
    match hcur : cur with
    | [] =>
      have : r = L := by simpa using inv.rem_eq
      exact this ▸ hc
    | y :: ys =>
      have h1 : c ≤ y := hcur_c y (by simp)
      have h2 : y ≤ L := inv.le_board y (by simp)
      exact le_trans h1 h2
  refine ⟨?_, ?_, ?_, ?_, ?_, ?_⟩
  · rw [inv.rem_eq]; simp; ring
  · intro _
    simpa using hc
  · rw [List.Sorted, List.pairwise_append]
    refine ⟨inv.sorted, by simp, ?_⟩
    intro x hx y hy
    rw [List.mem_singleton] at hy
    subst hy
    exact hcur_c x hx
  · intro x hx
    rcases List.mem_append.1 hx with hx2 | hx2
    · exact inv.le_board x hx2
    · rw [List.mem_singleton] at hx2; subst hx2; exact hcL
  · intro x hx
    rcases List.mem_append.1 hx with hx2 | hx2
    · exact inv.mem_lens x hx2
    · rw [List.mem_singleton] at hx2; subst hx2; exact enum_snd_mem hq
  · intro q hqe hiq x hx
    rcases List.mem_append.1 hx with hx2 | hx2
    · exact inv.future_le q hqe (le_trans hi hiq) x hx2
    · rw [List.mem_singleton] at hx2; subst hx2
      exact sorted_enum_le hs hq hqe hiq

theorem genInv_emit {L : Int} {lens : List Int} {r : Int} {cur : Pattern} {start : Nat}
    (inv : GenInv L lens r cur start) (hne : cur ≠ []) : GoodPat L lens cur := by
  refine ⟨hne, ?_, inv.sorted, inv.le_board, inv.mem_lens⟩
  have h1 := inv.rem_eq
  have h2 := inv.rem_nonneg hne
  omega

theorem genLoop_good {L : Int} {lens : List Int}
    (step : Int → Pattern → Nat → List Pattern → List Pattern)
    (hs : lens.Sorted geInt)
    (hstep : ∀ r cur i acc, GenInv L lens r cur i → (∀ p ∈ acc, GoodPat L lens p) →
      ∀ p ∈ step r cur i acc, GoodPat L lens p) :
    ∀ (ps : List (Nat × Int)) (r : Int) (cur : Pattern) (start : Nat)
      (acc : List Pattern), GenInv L lens r cur start →
      (∀ q ∈ ps, q ∈ lens.enum ∧ start ≤ q.1) →
      (∀ p ∈ acc, GoodPat L lens p) →
      ∀ p ∈ genLoop step r cur ps acc, GoodPat L lens p := by
  intro ps
  induction ps with
  | nil => intro r cur start acc _ _ hacc p hp; exact hacc p hp
  | cons q rest ih =>
    intro r cur start acc inv hps hacc p hp
    obtain ⟨i, c⟩ := q
    rw [genLoop] at hp
    refine ih r cur start _ inv (fun q hq => hps q (by simp [hq])) ?_ p hp
    by_cases hc : c ≤ r
    · simp only [if_pos hc]
      exact hstep _ _ _ _
        (genInv_child hs inv (hps (i, c) (by simp)).1 (hps (i, c) (by simp)).2 hc) hacc
    · simpa [if_neg hc] using hacc

theorem genRec_good {L : Int} {lens : List Int} {maxP : Nat}
    (hs : lens.Sorted geInt) :
    ∀ (fuel : Nat) (r : Int) (cur : Pattern) (start : Nat) (acc : List Pattern),
      GenInv L lens r cur start → (∀ p ∈ acc, GoodPat L lens p) →
      ∀ p ∈ genRec lens maxP fuel r cur start acc, GoodPat L lens p := by
  intro fuel
  induction fuel with
  | zero => intro r cur start acc _ hacc p hp; exact hacc p (by simpa [genRec] using hp)
  | succ n ih =>
    intro r cur start acc inv hacc p hp
    rw [genRec] at hp
    by_cases hcap : maxP ≤ acc.length
    · exact hacc p (by simpa [if_pos hcap] using hp)
    · rw [if_neg hcap] at hp
      have hacc1 : ∀ p ∈ (if cur.isEmpty then acc else acc ++ [cur]), GoodPat L lens p := by
        by_cases hce : cur.isEmpty
        · simpa [hce] using hacc
        · rw [if_neg hce]
          intro p hp2
          rcases List.mem_append.1 hp2 with hp3 | hp3
          · exact hacc p hp3
          · rw [List.mem_singleton] at hp3; subst hp3
            exact genInv_emit inv (by simpa [List.isEmpty_iff] using hce)
      exact genLoop_good _ hs (fun r2 c2 i2 a2 => ih r2 c2 i2 a2) _ r cur start _ inv
        (fun q hq => mem_enum_drop hq) hacc1 p hp

theorem sortDesc_sorted (l : List Int) : (sortDesc l).Sorted geInt :=
  List.sorted_insertionSort geInt l

theorem sortDesc_perm (l : List Int) : (sortDesc l).Perm l :=
  List.perm_insertionSort geInt l

theorem mem_sortDesc {l : List Int} {x : Int} : x ∈ sortDesc l ↔ x ∈ l :=
  (sortDesc_perm l).mem_iff

theorem genInv_init (L : Int) (lens : List Int) : GenInv L lens L [] 0 := by
  refine ⟨by simp, by simp, by simp [List.Sorted], by simp, by simp, by simp⟩

theorem generateCuttingPatterns_good {cutLengths : List Int} {boardLength : Int}
    {maxPatterns : Nat} {p : Pattern}
    (hp : p ∈ generateCuttingPatterns cutLengths boardLength maxPatterns) :
    GoodPat boardLength (sortDesc cutLengths.dedup) p := by
  rw [generateCuttingPatterns] at hp
  have hp2 := (List.perm_insertionSort matGe _).mem_iff.1 hp
  exact genRec_good (sortDesc_sorted _) _ _ _ _ _ (genInv_init _ _) (by simp) p hp2

theorem gen_mem_lens {cutLengths : List Int} {boardLength : Int} {maxPatterns : Nat}
    {p : Pattern} (hp : p ∈ generateCuttingPatterns cutLengths boardLength maxPatterns)
    {x : Int} (hx : x ∈ p) : x ∈ cutLengths := by
  have := (generateCuttingPatterns_good hp).mem_lens x hx
  exact List.mem_dedup.1 (mem_sortDesc.1 this)

/-! ### Pattern generator: distinctness, cap, and reachability -/

theorem genLoop_nodup {step : Int → Pattern → Nat → List Pattern → List Pattern}
    (hstep : ∀ r cur i acc, acc.Nodup → (∀ p ∈ acc, ¬(cur <+: p)) →
      (step r cur i acc).Nodup ∧ ∀ p ∈ step r cur i acc, p ∈ acc ∨ cur <+: p) :
    ∀ (ps : List (Nat × Int)) (r : Int) (cur : Pattern) (acc : List Pattern),
      (ps.map Prod.snd).Nodup → acc.Nodup →
      (∀ p ∈ acc, ∀ c ∈ ps.map Prod.snd, ¬((cur ++ [c]) <+: p)) →
      (genLoop step r cur ps acc).Nodup ∧
        ∀ p ∈ genLoop step r cur ps acc,
          p ∈ acc ∨ ∃ c ∈ ps.map Prod.snd, (cur ++ [c]) <+: p := by
  intro ps
  induction ps with
  | nil =>
    intro r cur acc _ hacc _
    exact ⟨hacc, fun p hp => Or.inl hp⟩
  | cons q rest ih =>
    intro r cur acc hvals hacc hext
    obtain ⟨i, c⟩ := q
    simp only [List.map_cons] at hvals hext
    have hckr := List.nodup_cons.1 hvals
    rw [genLoop]
    by_cases hc : c ≤ r
    · rw [if_pos hc]
      have hstep2 := hstep (r - c) (cur ++ [c]) i acc hacc (by
        intro p hp hpre
        exact hext p hp c (by simp) hpre)
      rcases hstep2 with ⟨hnd2, hchar2⟩
      have hres := ih r cur (step (r - c) (cur ++ [c]) i acc) hckr.2 hnd2 (by
        intro p hp c2 hc2 hpre
        rcases hchar2 p hp with hp2 | hp2
        · exact hext p hp2 c2 (by simp [hc2]) hpre
        · have h1 : (cur ++ [c]) <+: p := hp2
          have hlen : (cur ++ [c2]).length = (cur ++ [c]).length := by simp
          have h3 : (cur ++ [c2]) = (cur ++ [c]) :=
            (List.prefix_of_prefix_length_le hpre h1 (le_of_eq hlen)).eq_of_length hlen
          have : c2 = c := by
            have := List.append_cancel_left h3
            simpa using this
          exact hckr.1 (this ▸ hc2))
      refine ⟨hres.1, ?_⟩
      intro p hp
      rcases hres.2 p hp with hp2 | hp2
      · rcases hchar2 p hp2 with hp3 | hp3
        · exact Or.inl hp3
        · exact Or.inr ⟨c, by simp, hp3⟩
      · rcases hp2 with ⟨c2, hc2, hpre⟩
        exact Or.inr ⟨c2, by simp [hc2], hpre⟩
    · rw [if_neg hc]
      have hres := ih r cur acc hckr.2 hacc (by
        intro p hp c2 hc2 hpre
        exact hext p hp c2 (by simp [hc2]) hpre)
      refine ⟨hres.1, ?_⟩
      intro p hp
      rcases hres.2 p hp with hp2 | hp2
      · exact Or.inl hp2
      · rcases hp2 with ⟨c2, hc2, hpre⟩
        exact Or.inr ⟨c2, by simp [hc2], hpre⟩

theorem enum_drop_snd_nodup {lens : List Int} (hlen : lens.Nodup) (s : Nat) :
    ((lens.enum.drop s).map Prod.snd).Nodup := by
  rw [List.map_drop, List.enum_map_snd]
  exact (List.drop_sublist s lens).nodup hlen

theorem genRec_nodup {lens : List Int} {maxP : Nat} (hlen : lens.Nodup) :
    ∀ (fuel : Nat) (r : Int) (cur : Pattern) (start : Nat) (acc : List Pattern),
      acc.Nodup → (∀ p ∈ acc, ¬(cur <+: p)) →
      (genRec lens maxP fuel r cur start acc).Nodup ∧
        ∀ p ∈ genRec lens maxP fuel r cur start acc, p ∈ acc ∨ cur <+: p := by
  intro fuel
  induction fuel with
  | zero =>
    intro r cur start acc hacc _
    rw [genRec]
    exact ⟨hacc, fun p hp => Or.inl hp⟩
  | succ n ih =>
    intro r cur start acc hacc hext
    rw [genRec]
    by_cases hcap : maxP ≤ acc.length
    · rw [if_pos hcap]
      exact ⟨hacc, fun p hp => Or.inl hp⟩
    · rw [if_neg hcap]
      have hacc1nd : (if cur.isEmpty then acc else acc ++ [cur]).Nodup := by
        by_cases hce : cur.isEmpty
        · simpa [hce] using hacc
        · rw [if_neg hce]
          have hniacc : cur ∉ acc := fun hmem => hext cur hmem (List.prefix_refl cur)
          simp [List.nodup_append, hacc, hniacc]
      have hres := genLoop_nodup (fun r2 c2 i2 a2 => ih r2 c2 i2 a2)
        (lens.enum.drop start) r cur _ (enum_drop_snd_nodup hlen start) hacc1nd (by
          intro p hp c hc hpre
          have hcurp : cur <+: p := (List.prefix_append cur [c]).trans hpre
          by_cases hce : cur.isEmpty
          · rw [if_pos hce] at hp
            exact hext p hp hcurp
          · rw [if_neg hce] at hp
            rcases List.mem_append.1 hp with hp2 | hp2
            · exact hext p hp2 hcurp
            · rw [List.mem_singleton] at hp2
              subst hp2
              have := hpre.length_le
              simp at this)
      refine ⟨hres.1, ?_⟩
      intro p hp
      rcases hres.2 p hp with hp2 | hp2
      · by_cases hce : cur.isEmpty
        · rw [if_pos hce] at hp2
          exact Or.inl hp2
        · rw [if_neg hce] at hp2
          rcases List.mem_append.1 hp2 with hp3 | hp3
          · exact Or.inl hp3
          · rw [List.mem_singleton] at hp3
            subst hp3
            exact Or.inr (List.prefix_refl p)
      · rcases hp2 with ⟨c, _, hpre⟩
        exact Or.inr ((List.prefix_append cur [c]).trans hpre)

theorem generateCuttingPatterns_nodup (cutLengths : List Int) (boardLength : Int)
    (maxPatterns : Nat) :
    (generateCuttingPatterns cutLengths boardLength maxPatterns).Nodup := by
  rw [generateCuttingPatterns]
  rw [(List.perm_insertionSort matGe _).nodup_iff]
  have hlen : (sortDesc cutLengths.dedup).Nodup :=
    (sortDesc_perm _).nodup_iff.2 cutLengths.nodup_dedup
  exact (genRec_nodup hlen _ _ _ _ _ (by simp) (by simp)).1

theorem genLoop_length_le {step : Int → Pattern → Nat → List Pattern → List Pattern}
    {maxP : Nat}
    (hstep : ∀ r cur i acc, (step r cur i acc).length ≤ max acc.length maxP) :
    ∀ (ps : List (Nat × Int)) (r : Int) (cur : Pattern) (acc : List Pattern),
      (genLoop step r cur ps acc).length ≤ max acc.length maxP := by
  intro ps
  induction ps with
  | nil => intro r cur acc; simp [genLoop]
  | cons q rest ih =>
    intro r cur acc
    obtain ⟨i, c⟩ := q
    rw [genLoop]
    refine le_trans (ih r cur _) ?_
    by_cases hc : c ≤ r
    · rw [if_pos hc]
      exact max_le (le_trans (hstep _ _ _ _) (max_le (le_max_left _ _) (le_max_right _ _)))
        (le_max_right _ _)
    · rw [if_neg hc]

theorem genRec_length_le {lens : List Int} {maxP : Nat} :
    ∀ (fuel : Nat) (r : Int) (cur : Pattern) (start : Nat) (acc : List Pattern),
      (genRec lens maxP fuel r cur start acc).length ≤ max acc.length maxP := by
  intro fuel
  induction fuel with
  | zero => intro r cur start acc; rw [genRec]; exact le_max_left _ _
  | succ n ih =>
    intro r cur start acc
    rw [genRec]
    by_cases hcap : maxP ≤ acc.length
    · rw [if_pos hcap]; exact le_max_left _ _
    · rw [if_neg hcap]
      refine le_trans (genLoop_length_le (fun r2 c2 i2 a2 => ih r2 c2 i2 a2) _ _ _ _) ?_
      have h1 : (if cur.isEmpty then acc else acc ++ [cur]).length ≤ maxP := by
        by_cases hce : cur.isEmpty
        · rw [if_pos hce]; omega
        · rw [if_neg hce]; simp; omega
      exact max_le (le_trans h1 (le_max_right _ _)) (le_max_right _ _)

theorem generateCuttingPatterns_length_le (cutLengths : List Int) (boardLength : Int)
    (maxPatterns : Nat) :
    (generateCuttingPatterns cutLengths boardLength maxPatterns).length ≤ maxPatterns := by
  rw [generateCuttingPatterns]
  rw [(List.perm_insertionSort matGe _).length_eq]
  simpa using genRec_length_le (maxPatterns + 2) boardLength [] 0 []

theorem genLoop_extend {step : Int → Pattern → Nat → List Pattern → List Pattern}
    (hstep : ∀ r cur i acc, acc <+: step r cur i acc) :
    ∀ (ps : List (Nat × Int)) (r : Int) (cur : Pattern) (acc : List Pattern),
      acc <+: genLoop step r cur ps acc := by
  intro ps
  induction ps with
  | nil => intro r cur acc; simp [genLoop]
  | cons q rest ih =>
    intro r cur acc
    obtain ⟨i, c⟩ := q
    rw [genLoop]
    by_cases hc : c ≤ r
    · rw [if_pos hc]
      exact (hstep _ _ _ _).trans (ih r cur _)
    · rw [if_neg hc]
      exact ih r cur _

theorem genRec_extend {lens : List Int} {maxP : Nat} :
    ∀ (fuel : Nat) (r : Int) (cur : Pattern) (start : Nat) (acc : List Pattern),
      acc <+: genRec lens maxP fuel r cur start acc := by
  intro fuel
  induction fuel with
  | zero => intro r cur start acc; rw [genRec]
  | succ n ih =>
    intro r cur start acc
    rw [genRec]
    by_cases hcap : maxP ≤ acc.length
    · rw [if_pos hcap]
    · rw [if_neg hcap]
      refine List.IsPrefix.trans ?_ (genLoop_extend (fun r2 c2 i2 a2 => ih r2 c2 i2 a2) _ _ _ _)
      by_cases hce : cur.isEmpty
      · rw [if_pos hce]
      · rw [if_neg hce]; exact List.prefix_append acc [cur]

theorem genRec_first_emit {lens : List Int} {maxP : Nat} {fuel : Nat} (hf : 1 ≤ fuel)
    (r : Int) (cur : Pattern) (start : Nat) (acc : List Pattern) (hne : ¬cur.isEmpty) :
    cur ∈ genRec lens maxP fuel r cur start acc ∨
      maxP ≤ (genRec lens maxP fuel r cur start acc).length := by
  match fuel, hf with
  | n + 1, _ =>
    rw [genRec]
    by_cases hcap : maxP ≤ acc.length
    · rw [if_pos hcap]
      exact Or.inr hcap
    · rw [if_neg hcap, if_neg hne]
      left
      exact (genLoop_extend (fun r2 c2 i2 a2 => genRec_extend n r2 c2 i2 a2) _ _ _ _).subset
        (by simp)

theorem genLoop_reach {step : Int → Pattern → Nat → List Pattern → List Pattern}
    {maxP : Nat}
    (hext : ∀ r cur i acc, acc <+: step r cur i acc)
    (hemit : ∀ r cur2 i acc, ¬cur2.isEmpty →
      cur2 ∈ step r cur2 i acc ∨ maxP ≤ (step r cur2 i acc).length) :
    ∀ (ps : List (Nat × Int)) (r : Int) (cur : Pattern) (acc : List Pattern)
      (i : Nat) (c : Int), (i, c) ∈ ps → c ≤ r →
      (cur ++ [c]) ∈ genLoop step r cur ps acc ∨
        maxP ≤ (genLoop step r cur ps acc).length := by
  intro ps
  induction ps with
  | nil => intro r cur acc i c h; simp at h
  | cons q rest ih =>
    intro r cur acc i c hmem hc
    obtain ⟨j, d⟩ := q
    rw [genLoop]
    rcases List.mem_cons.1 hmem with hq | hq
    · rw [Prod.mk.injEq] at hq
      obtain ⟨rfl, rfl⟩ := hq
      rw [if_pos hc]
      rcases hemit (r - c) (cur ++ [c]) i acc (by simp) with hin | hlen
      · left
        exact (genLoop_extend hext rest r cur _).subset hin
      · right
        exact le_trans hlen (genLoop_extend hext rest r cur _).length_le
    · by_cases hd : d ≤ r
      · rw [if_pos hd]
        exact ih r cur _ i c hq hc
      · rw [if_neg hd]
        exact ih r cur acc i c hq hc

theorem generateCuttingPatterns_mem_single {cutLengths : List Int} {boardLength : Int}
    {maxPatterns : Nat} {c : Int} (hc : c ∈ cutLengths) (hcL : c ≤ boardLength)
    (hlen : (generateCuttingPatterns cutLengths boardLength maxPatterns).length < maxPatterns) :
    ∃ p ∈ generateCuttingPatterns cutLengths boardLength maxPatterns, c ∈ p := by
  rw [generateCuttingPatterns] at hlen ⊢
  rw [(List.perm_insertionSort matGe _).length_eq] at hlen
  set lens := sortDesc cutLengths.dedup with hlens
  have hcl : c ∈ lens := mem_sortDesc.2 (List.mem_dedup.2 hc)
  rcases List.mem_iff_getElem?.1 hcl with ⟨i, hi⟩
  have henum : (i, c) ∈ lens.enum := List.mem_enum_iff_getElem?.2 (by simpa using hi)
  rw [genRec] at hlen ⊢
  by_cases hcap : maxPatterns ≤ ([] : List Pattern).length
  · exfalso
    rw [if_pos hcap] at hlen
    simp at hcap hlen
    omega
  · rw [if_neg hcap] at hlen ⊢
    simp only [List.isEmpty_nil, if_true, List.drop_zero] at hlen ⊢
    have := @genLoop_reach (genRec lens maxPatterns (maxPatterns + 1)) maxPatterns
      (fun r2 c2 i2 a2 => genRec_extend _ r2 c2 i2 a2)
      (fun r2 c2 i2 a2 h2 => genRec_first_emit (by omega) r2 c2 i2 a2 h2)
      lens.enum boardLength [] [] i c henum hcL
    rcases this with hin | hbig
    · refine ⟨[c], ?_, by simp⟩
      exact (List.perm_insertionSort matGe _).mem_iff.2 (by simpa using hin)
    · omega

/-! ### Best-fit-decreasing packer -/

theorem foldl_invariant {α β : Type} (f : β → α → β) (P : β → Prop) :
    ∀ (l : List α) (init : β), P init → (∀ b a, a ∈ l → P b → P (f b a)) →
      P (l.foldl f init) := by
  intro l
  induction l with
  | nil => intro init h _; exact h
  | cons x xs ih =>
    intro init h hstep
    exact ih (f init x) (hstep init x (by simp) h)
      (fun b a ha hb => hstep b a (by simp [ha]) hb)

theorem findBestFit_valid {cut : Int} {boards : List (Int × List Int)} {i : Nat} {ra : Int}
    (h : findBestFit cut boards = some (i, ra)) :
    ∃ b, boards[i]? = some b ∧ ra = b.1 - cut ∧ 0 ≤ ra := by
  rw [findBestFit] at h
  have : ∀ j rb,
      (boards.enum.foldl
        (fun best idxb =>
          let ra := idxb.2.1 - cut
          let beats := match best with
            | none => true
            | some br => decide (ra < br.2)
          if 0 ≤ ra ∧ beats = true then some (idxb.1, ra) else best)
        none) = some (j, rb) →
      ∃ b, boards[j]? = some b ∧ rb = b.1 - cut ∧ 0 ≤ rb := by
    refine foldl_invariant _
      (fun res : Option (Nat × Int) => ∀ j rb, res = some (j, rb) →
        ∃ b : Int × List Int, boards[j]? = some b ∧ rb = b.1 - cut ∧ 0 ≤ rb)
      boards.enum none (fun j rb h2 => by simp at h2) ?_
    intro b a ha hb j rb hj
    simp only at hj
    split at hj
    · rename_i hcond
      replace hj := Option.some.inj hj
      obtain ⟨rfl, rfl⟩ : a.1 = j ∧ a.2.1 - cut = rb :=
        ⟨congrArg Prod.fst hj, congrArg Prod.snd hj⟩
      refine ⟨a.2, ?_, rfl, hcond.1⟩
      have hmem : (a.1, a.2) ∈ boards.enum := by simpa using ha
      exact List.mem_enum_iff_getElem?.1 hmem
    · exact hb j rb hj
  exact this i ra h

theorem placeAt_length (cut : Int) :
    ∀ (boards : List (Int × List Int)) (i : Nat), (placeAt cut boards i).length = boards.length := by
  intro boards
  induction boards with
  | nil => intro i; rfl
  | cons b bs ih =>
    intro i
    match i with
    | 0 => rfl
    | n + 1 =>
      show (b :: placeAt cut bs n).length = (b :: bs).length
      simp [ih n]

theorem placeAt_flat_perm (cut : Int) :
    ∀ (boards : List (Int × List Int)) (i : Nat), i < boards.length →
      ((placeAt cut boards i).flatMap Prod.snd).Perm (cut :: boards.flatMap Prod.snd) := by
  intro boards
  induction boards with
  | nil => intro i h; simp at h
  | cons b bs ih =>
    intro i hi
    match i with
    | 0 =>
      simp only [placeAt, List.flatMap_cons, List.append_assoc, List.singleton_append]
      exact List.perm_middle
    | n + 1 =>
      simp only [placeAt, List.flatMap_cons]
      refine List.Perm.trans ((ih n (by simpa using hi)).append_left b.2) ?_
      exact List.perm_middle

theorem mem_placeAt {cut : Int} :
    ∀ {boards : List (Int × List Int)} {i : Nat} {e : Int × List Int},
      e ∈ placeAt cut boards i →
      e ∈ boards ∨ ∃ b, boards[i]? = some b ∧ e = (b.1 - cut, b.2 ++ [cut]) := by
  intro boards
  induction boards with
  | nil => intro i e h; simp [placeAt] at h
  | cons b bs ih =>
    intro i e h
    match i with
    | 0 =>
      rcases List.mem_cons.1 h with h2 | h2
      · right; exact ⟨b, by simp, h2⟩
      · left; simp [h2]
    | n + 1 =>
      rcases List.mem_cons.1 h with h2 | h2
      · left; simp [h2]
      · rcases ih h2 with h3 | h3
        · left; simp [h3]
        · right; simpa using h3

theorem packStep_flat_perm (L : Int) (boards : List (Int × List Int)) (cut : Int) :
    ((packStep L boards cut).flatMap Prod.snd).Perm (cut :: boards.flatMap Prod.snd) := by
  rw [packStep]
  match hfb : findBestFit cut boards with
  | some (i, ra) =>
    rcases findBestFit_valid hfb with ⟨b, hb, _, _⟩
    exact placeAt_flat_perm cut boards i (List.getElem?_eq_some.1 hb).1
  | none =>
    simp only [List.flatMap_append, List.flatMap_cons, List.flatMap_nil, List.append_nil]
    exact (@List.perm_middle _ _ _ []).trans (by simp)

theorem foldl_packStep_flat_perm (L : Int) :
    ∀ (l : List Int) (boards : List (Int × List Int)),
      ((l.foldl (packStep L) boards).flatMap Prod.snd).Perm
        (l ++ boards.flatMap Prod.snd) := by
  intro l
  induction l with
  | nil => intro boards; simp
  | cons c rest ih =>
    intro boards
    rw [List.foldl_cons]
    refine (ih (packStep L boards c)).trans ?_
    refine ((packStep_flat_perm L boards c).append_left rest).trans ?_
    exact List.perm_middle

theorem packCutsIntoBoards_perm (cutsList : List Int) (L : Int) :
    ((packCutsIntoBoards cutsList L).flatMap id).Perm cutsList := by
  rw [packCutsIntoBoards]
  by_cases he : cutsList.isEmpty
  · rw [if_pos he]
    simp [List.isEmpty_iff.1 he]
  · rw [if_neg he]
    rw [List.flatMap_map]
    refine (foldl_packStep_flat_perm L (sortDesc cutsList) []).trans ?_
    simpa using sortDesc_perm cutsList

theorem packStep_inv {L : Int} {boards : List (Int × List Int)} {cut : Int}
    (hinv : PackInv L boards) (hcut : cut ≤ L) : PackInv L (packStep L boards cut) := by
  rw [packStep]
  match hfb : findBestFit cut boards with
  | some (i, ra) =>
    rcases findBestFit_valid hfb with ⟨b, hb, hra, hnn⟩
    intro e he
    rcases mem_placeAt he with he2 | he2
    · exact hinv e he2
    · rcases he2 with ⟨b2, hb2, rfl⟩
      have hbb : b2 = b := by
        rw [hb] at hb2
        exact (Option.some.inj hb2).symm
      subst hbb
      have hbmem : b2 ∈ boards := List.getElem?_mem hb2
      rcases hinv b2 hbmem with ⟨hsum, _, _⟩
      refine ⟨?_, ?_, by simp⟩
      · rw [hsum, List.sum_append]
        simp only [List.sum_cons, List.sum_nil]
        omega
      · rw [← hra]
        exact hnn
  | none =>
    intro e he
    rcases List.mem_append.1 he with he2 | he2
    · exact hinv e he2
    · rw [List.mem_singleton] at he2
      subst he2
      refine ⟨by simp, by simpa using hcut, by simp⟩

theorem foldl_packStep_inv {L : Int} :
    ∀ (l : List Int) (boards : List (Int × List Int)),
      PackInv L boards → (∀ c ∈ l, c ≤ L) → PackInv L (l.foldl (packStep L) boards) := by
  intro l
  induction l with
  | nil => intro boards h _; exact h
  | cons c rest ih =>
    intro boards h hle
    exact ih (packStep L boards c) (packStep_inv h (hle c (by simp)))
      (fun c2 hc2 => hle c2 (by simp [hc2]))

theorem packCutsIntoBoards_ok {cutsList : List Int} {L : Int}
    (hle : ∀ c ∈ cutsList, c ≤ L) :
    ∀ cs ∈ packCutsIntoBoards cutsList L, cs.sum ≤ L ∧ cs ≠ [] := by
  intro cs hcs
  rw [packCutsIntoBoards] at hcs
  by_cases he : cutsList.isEmpty
  · rw [if_pos he] at hcs
    simp at hcs
  · rw [if_neg he] at hcs
    rcases List.mem_map.1 hcs with ⟨b, hbmem, rfl⟩
    have hinv := foldl_packStep_inv (sortDesc cutsList) [] (by simp [PackInv])
      (fun c hc => hle c (mem_sortDesc.1 hc))
    rcases hinv b hbmem with ⟨hsum, hnn, hne⟩
    exact ⟨by omega, hne⟩

theorem packStep_ne_nil (L : Int) (boards : List (Int × List Int)) (cut : Int) :
    packStep L boards cut ≠ [] := by
  rw [packStep]
  match hfb : findBestFit cut boards with
  | some (i, ra) =>
    rcases findBestFit_valid hfb with ⟨b, hb, _, _⟩
    have h1 : 0 < boards.length := lt_of_le_of_lt (Nat.zero_le i) (List.getElem?_eq_some.1 hb).1
    show placeAt cut boards i ≠ []
    intro hcon
    have h2 := placeAt_length cut boards i
    rw [hcon] at h2
    simp at h2
    omega
  | none => simp

theorem foldl_packStep_ne_nil (L : Int) :
    ∀ (l : List Int) (boards : List (Int × List Int)),
      boards ≠ [] ∨ l ≠ [] → l.foldl (packStep L) boards ≠ [] := by
  intro l
  induction l with
  | nil =>
    intro boards h
    rcases h with h | h
    · exact h
    · simp at h
  | cons c rest ih =>
    intro boards _
    rw [List.foldl_cons]
    exact ih (packStep L boards c) (Or.inl (packStep_ne_nil L boards c))

theorem packCutsIntoBoards_ne_nil {cutsList : List Int} {L : Int}
    (hne : cutsList ≠ []) : packCutsIntoBoards cutsList L ≠ [] := by
  rw [packCutsIntoBoards]
  rw [if_neg (by simpa using hne)]
  intro hcon
  have h1 : sortDesc cutsList ≠ [] := by
    intro h2
    have h3 := sortDesc_perm cutsList
    rw [h2] at h3
    exact hne h3.nil_eq.symm
  have := foldl_packStep_ne_nil L (sortDesc cutsList) [] (Or.inr h1)
  simp at hcon
  exact this hcon

/-! ### Counting cuts through flattening and packing -/

theorem count_flatMap {α β : Type} [DecidableEq β] (f : α → List β) (x : β) :
    ∀ l : List α, (l.flatMap f).count x = (l.map fun a => (f a).count x).sum := by
  intro l
  induction l with
  | nil => simp
  | cons a as ih => simp [List.count_append, ih]

theorem sum_ite_key (l : Int) (g : Int → Nat) :
    ∀ ds : List Int, ds.Nodup →
      (ds.map fun k => if k = l then g k else 0).sum = if l ∈ ds then g l else 0 := by
  intro ds
  induction ds with
  | nil => simp
  | cons k rest ih =>
    intro hnd
    rcases List.nodup_cons.1 hnd with ⟨hk, hnd2⟩
    by_cases hkl : k = l
    · subst hkl
      have : (rest.map fun k2 => if k2 = k then g k2 else 0).sum = 0 := by
        rw [ih hnd2, if_neg hk]
      simp [this]
    · have hmem : (l ∈ k :: rest) ↔ (l ∈ rest) := by
        constructor
        · intro h
          rcases List.mem_cons.1 h with h2 | h2
          · exact absurd h2.symm hkl
          · exact h2
        · intro h
          exact List.mem_cons.2 (Or.inr h)
      simp only [List.map_cons, List.sum_cons, if_neg hkl, ih hnd2, Nat.zero_add]
      by_cases hl : l ∈ rest
      · rw [if_pos hl, if_pos (hmem.2 hl)]
      · rw [if_neg hl, if_neg (fun hc => hl (hmem.1 hc))]

theorem count_flattenPattern (p : Pattern) (t : Nat) (l : Int) :
    (flattenPattern p t).count l = p.count l * t := by
  rw [flattenPattern, count_flatMap]
  have h1 : (p.dedup.map fun k => (List.replicate (p.count k * t) k).count l).sum
      = (p.dedup.map fun k => if k = l then p.count k * t else 0).sum := by
    congr 1
    refine List.map_congr_left ?_
    intro k _
    rw [List.count_replicate]
    by_cases hkl : k = l <;> simp [hkl]
  rw [h1, sum_ite_key l (fun k => p.count k * t) p.dedup p.nodup_dedup]
  by_cases hl : l ∈ p
  · rw [if_pos (List.mem_dedup.2 hl)]
  · rw [if_neg (fun hc => hl (List.mem_dedup.1 hc))]
    rw [List.count_eq_zero.2 hl]
    simp

theorem count_cutsForType (a : (Nat × Nat) → Nat) (bi : Nat) (pats : List Pattern) (l : Int) :
    (cutsForType a bi pats).count l
      = (pats.enum.map fun pip => pip.2.count l * a (bi, pip.1)).sum := by
  rw [cutsForType, count_flatMap]
  congr 1
  refine List.map_congr_left ?_
  intro pip _
  exact count_flattenPattern pip.2 (a (bi, pip.1)) l

theorem filterMap_term_sum (a : (Nat × Nat) → Nat) (bi : Nat) (l : Int) :
    ∀ pe : List (Nat × Pattern),
      ((pe.filterMap fun pip =>
          let c := pip.2.count l
          if 0 < c then some ((bi, pip.1), c) else none).map
        fun tc => a tc.1 * tc.2).sum
      = (pe.map fun pip => pip.2.count l * a (bi, pip.1)).sum := by
  intro pe
  induction pe with
  | nil => simp
  | cons pip rest ih =>
    simp only [List.filterMap_cons]
    by_cases hc : 0 < pip.2.count l
    · rw [if_pos hc]
      simp only [List.map_cons, List.sum_cons, ih]
      ring_nf
    · rw [if_neg hc]
      have h0 : pip.2.count l = 0 := by omega
      simp only [List.map_cons, List.sum_cons, h0, Nat.zero_mul, Nat.zero_add, ih]

theorem constraintTerms_sum (bp : List (Nat × List Pattern)) (l : Int)
    (a : (Nat × Nat) → Nat) :
    ((constraintTerms bp l).map fun tc => a tc.1 * tc.2).sum
      = (bp.map fun bips => (cutsForType a bips.1 bips.2).count l).sum := by
  rw [constraintTerms]
  induction bp with
  | nil => simp
  | cons bips rest ih =>
    simp only [List.flatMap_cons, List.map_append, List.sum_append, List.map_cons,
      List.sum_cons, ih]
    congr 1
    rw [count_cutsForType]
    exact filterMap_term_sum a bips.1 l bips.2.enum

/-! ### Requirements, groups, and the constraint system -/

theorem lookupD_of_not_mem {κ α : Type} [DecidableEq κ] {l : List (κ × α)} {k : κ}
    (d : α) (h : k ∉ l.map Prod.fst) : lookupD l k d = d := by
  induction l with
  | nil => rfl
  | cons e rest ih =>
    obtain ⟨k2, v⟩ := e
    have hk2 : k2 ≠ k := fun hc => h (by simp [hc])
    rw [lookupD]
    simp only [if_neg hk2]
    exact ih fun hc => h (by simp [hc])

theorem lookupD_mem {κ α : Type} [DecidableEq κ] {l : List (κ × α)} {k : κ}
    (d : α) (h : k ∈ l.map Prod.fst) : (k, lookupD l k d) ∈ l := by
  induction l with
  | nil => simp at h
  | cons e rest ih =>
    obtain ⟨k2, v⟩ := e
    by_cases hk2 : k2 = k
    · subst hk2
      rw [lookupD]
      simp
    · rw [lookupD]
      simp only [if_neg hk2]
      rw [List.map_cons] at h
      have hr : k ∈ rest.map Prod.fst := by
        rcases List.mem_cons.1 h with h2 | h2
        · exact absurd h2.symm hk2
        · exact h2
      exact List.mem_cons.2 (Or.inr (ih hr))

theorem updList_add_lookup (g : List (Int × Int)) (k : Int) (q : Int) (l : Int) :
    lookupD (updList g k (· + q) 0) l 0
      = lookupD g l 0 + (if k = l then q else 0) := by
  by_cases hkl : k = l
  · subst hkl
    rw [lookupD_updList_self]
    simp
  · rw [lookupD_updList_other g k l _ _ hkl]
    simp [hkl]

theorem cutRequirements_lookup (l : Int) :
    ∀ (g : List Cut) (acc : List (Int × Int)),
      lookupD (g.foldl (fun acc c => updList acc c.length (· + c.quantity) 0) acc) l 0
        = lookupD acc l 0 + ((g.filter fun c => c.length = l).map Cut.quantity).sum := by
  intro g
  induction g with
  | nil => intro acc; simp
  | cons c rest ih =>
    intro acc
    rw [List.foldl_cons, ih]
    by_cases hcl : c.length = l
    · rw [List.filter_cons_of_pos (by simp [hcl])]
      rw [updList_add_lookup, if_pos hcl]
      simp
      ring
    · rw [List.filter_cons_of_neg (by simp [hcl])]
      rw [updList_add_lookup, if_neg hcl]
      simp

theorem cutRequirements_lookupD (g : List Cut) (l : Int) :
    lookupD (cutRequirements g) l 0
      = ((g.filter fun c => c.length = l).map Cut.quantity).sum := by
  rw [cutRequirements, cutRequirements_lookup l g []]
  simp [lookupD]

theorem cutRequirements_keys_sub :
    ∀ (g : List Cut) (acc : List (Int × Int)) (l : Int),
      l ∈ (g.foldl (fun acc c => updList acc c.length (· + c.quantity) 0) acc).map Prod.fst →
      l ∈ acc.map Prod.fst ∨ ∃ c ∈ g, c.length = l := by
  intro g
  induction g with
  | nil => intro acc l h; exact Or.inl h
  | cons c rest ih =>
    intro acc l h
    rw [List.foldl_cons] at h
    rcases ih _ l h with h2 | h2
    · by_cases hcl : c.length = l
      · exact Or.inr ⟨c, by simp, hcl⟩
      · left
        by_cases hmem : c.length ∈ acc.map Prod.fst
        · rwa [updList_keys_of_mem _ _ _ _ hmem] at h2
        · rw [updList_keys_of_not_mem _ _ _ _ hmem] at h2
          rcases List.mem_append.1 h2 with h3 | h3
          · exact h3
          · rw [List.mem_singleton] at h3
            exact absurd h3.symm hcl
    · rcases h2 with ⟨c2, hc2, hcl⟩
      exact Or.inr ⟨c2, by simp [hc2], hcl⟩

theorem buildConstraints_mem {d : Int × Int} {bp : List (Nat × List Pattern)} :
    ∀ {req : List (Int × Int)} {cons : List (List ((Nat × Nat) × Nat) × Int)},
      buildConstraints d bp req = .ok cons →
      ∀ e ∈ req, (constraintTerms bp e.1, e.2) ∈ cons := by
  intro req
  induction req with
  | nil => intro cons _ e he; simp at he
  | cons e2 rest ih =>
    intro cons hbc e he
    obtain ⟨len, qty⟩ := e2
    rw [buildConstraints] at hbc
    by_cases hte : (constraintTerms bp len).isEmpty
    · rw [if_pos hte] at hbc
      cases hbc
    · rw [if_neg hte] at hbc
      match hrest : buildConstraints d bp rest with
      | .error er =>
        rw [hrest] at hbc
        cases hbc
      | .ok cs2 =>
        rw [hrest] at hbc
        have hcons : cons = (constraintTerms bp len, qty) :: cs2 := by
          cases hbc
          rfl
        subst hcons
        rcases List.mem_cons.1 he with he2 | he2
        · subst he2
          simp
        · exact List.mem_cons.2 (Or.inr (ih hrest e he2))

theorem groupBoards_getElem {boards : List Board} {d : Int × Int} {i : Nat} {b : Board}
    (h : (i, b) ∈ groupBoards boards d) : boards[i]? = some b := by
  rw [groupBoards] at h
  have h2 : (i, b) ∈ boards.enum := List.mem_of_mem_filter h
  exact List.mem_enum_iff_getElem?.1 h2

theorem lookupBoard_eq {boards : List Board} {d : Int × Int} {bi : Nat} {b : Board}
    (h : (bi, b) ∈ groupBoards boards d) : lookupBoard (groupBoards boards d) bi = b := by
  rw [lookupBoard]
  match hf : (groupBoards boards d).find? fun ib => ib.1 = bi with
  | some ib =>
    have hpred := List.find?_some hf
    have hmem := List.mem_of_find?_eq_some hf
    have hkey : ib.1 = bi := by simpa using hpred
    have h1 : boards[bi]? = some ib.2 := by
      rw [← hkey]
      exact groupBoards_getElem (by simpa [← hkey] using hmem)
    have h2 : boards[bi]? = some b := groupBoards_getElem h
    rw [h1] at h2
    rw [hf]
    exact Option.some.inj h2
  | none =>
    exfalso
    have := List.find?_eq_none.1 hf (bi, b) h
    simp at this

theorem priceAt_of_getElem {boards : List Board} {bi : Nat} {b : Board}
    (h : boards[bi]? = some b) : priceAt boards bi = b.price := by
  rw [priceAt, h]
  rfl

theorem lengthAt_of_getElem {boards : List Board} {bi : Nat} {b : Board}
    (h : boards[bi]? = some b) : lengthAt boards bi = b.length := by
  rw [lengthAt, h]
  rfl

theorem boardPatterns_mem {gboards : List (Nat × Board)} {lens : List Int}
    {bips : Nat × List Pattern} (h : bips ∈ boardPatterns gboards lens) :
    ∃ b, (bips.1, b) ∈ gboards ∧ bips.2 = generateCuttingPatterns lens b.length := by
  rw [boardPatterns] at h
  have h2 := List.mem_of_mem_filter h
  rcases List.mem_map.1 h2 with ⟨ib, hib, hmk⟩
  refine ⟨ib.2, ?_, ?_⟩
  · have : bips.1 = ib.1 := by rw [← hmk]
    rw [this]
    exact hib
  · rw [← hmk]

theorem mem_flattenPattern {p : Pattern} {t : Nat} {x : Int}
    (h : x ∈ flattenPattern p t) : x ∈ p := by
  rw [flattenPattern] at h
  rcases List.mem_flatMap.1 h with ⟨k, hk, hx⟩
  have : x = k := by
    have := List.eq_of_mem_replicate hx
    exact this
  subst this
  exact List.mem_dedup.1 hk

theorem mem_cutsForType {a : (Nat × Nat) → Nat} {bi : Nat} {pats : List Pattern} {x : Int}
    (h : x ∈ cutsForType a bi pats) : ∃ p ∈ pats, x ∈ p := by
  rw [cutsForType] at h
  rcases List.mem_flatMap.1 h with ⟨pip, hpip, hx⟩
  exact ⟨pip.2, enum_snd_mem hpip, mem_flattenPattern hx⟩

theorem cast_map_sum {α : Type} (f : α → Nat) : ∀ l : List α,
    (((l.map f).sum : Nat) : Int) = (l.map fun a => ((f a : Nat) : Int)).sum := by
  intro l
  induction l with
  | nil => simp
  | cons x xs ih => simp only [List.map_cons, List.sum_cons, Nat.cast_add, ih]

theorem planCost_updList (price : Nat → Int) (bi used : Nat) :
    ∀ plan : List (Nat × Nat),
      ((updList plan bi (· + used) 0).map fun e => (e.2 : Int) * price e.1).sum
        = (plan.map fun e => (e.2 : Int) * price e.1).sum + (used : Int) * price bi := by
  intro plan
  induction plan with
  | nil => simp [updList]
  | cons e rest ih =>
    obtain ⟨k, v⟩ := e
    rw [updList]
    by_cases hk : k = bi
    · subst hk
      rw [if_pos rfl]
      simp only [List.map_cons, List.sum_cons]
      push_cast
      ring
    · rw [if_neg hk]
      simp only [List.map_cons, List.sum_cons, ih]
      ring

theorem flat_updList_count (bi : Nat) (packed : List (List Int)) (l : Int) :
    ∀ pl : List (Nat × List (List Int)),
      ((updList pl bi (· ++ packed) []).flatMap fun e => e.2.flatMap id).count l
        = ((pl.flatMap fun e => e.2.flatMap id).count l) + (packed.flatMap id).count l := by
  intro pl
  induction pl with
  | nil => simp [updList]
  | cons e rest ih =>
    obtain ⟨k, v⟩ := e
    rw [updList]
    by_cases hk : k = bi
    · subst hk
      rw [if_pos rfl]
      simp only [List.flatMap_cons, List.count_append, List.flatMap_append]
      omega
    · rw [if_neg hk]
      simp only [List.flatMap_cons, List.count_append, ih]
      omega

theorem applyBoardType_count {boards : List Board} {d : Int × Int} {lens : List Int}
    {a : (Nat × Nat) → Nat} {st : OptResult} {bips : Nat × List Pattern}
    (hb : ∃ b, (bips.1, b) ∈ groupBoards boards d ∧
      bips.2 = generateCuttingPatterns lens b.length) (l : Int) :
    ((applyBoardType (groupBoards boards d) a st bips).cutPlan.flatMap
        fun e => e.2.flatMap id).count l
      = ((st.cutPlan.flatMap fun e => e.2.flatMap id).count l)
        + (cutsForType a bips.1 bips.2).count l := by
  rcases hb with ⟨b, hbmem, hpats⟩
  rw [applyBoardType]
  by_cases hem : (cutsForType a bips.1 bips.2).isEmpty
  · rw [if_pos hem]
    rw [List.isEmpty_iff.1 hem]
    simp
  · rw [if_neg hem]
    simp only
    rw [flat_updList_count]
    have hperm := packCutsIntoBoards_perm (cutsForType a bips.1 bips.2)
      (lookupBoard (groupBoards boards d) bips.1).length
    rw [hperm.count_eq]

theorem applyBoardType_inv {boards : List Board} {d : Int × Int} {lens : List Int}
    {a : (Nat × Nat) → Nat} {st : OptResult} {bips : Nat × List Pattern}
    (hb : ∃ b, (bips.1, b) ∈ groupBoards boards d ∧
      bips.2 = generateCuttingPatterns lens b.length)
    (hinv : StInv boards st) :
    StInv boards (applyBoardType (groupBoards boards d) a st bips) := by
  rcases hb with ⟨b, hbmem, hpats⟩
  rw [applyBoardType]
  by_cases hem : (cutsForType a bips.1 bips.2).isEmpty
  · rwa [if_pos hem]
  · rw [if_neg hem]
    have hlb : lookupBoard (groupBoards boards d) bips.1 = b := lookupBoard_eq hbmem
    have hge : boards[bips.1]? = some b := groupBoards_getElem hbmem
    have hprice : priceAt boards bips.1 = b.price := priceAt_of_getElem hge
    have hlena : lengthAt boards bips.1 = b.length := lengthAt_of_getElem hge
    have hcle : ∀ c ∈ cutsForType a bips.1 bips.2, c ≤ b.length := by
      intro c hc
      rcases mem_cutsForType hc with ⟨p, hp, hcp⟩
      rw [hpats] at hp
      exact (generateCuttingPatterns_good hp).le_board c hcp
    rw [hlb]
    set cfb := cutsForType a bips.1 bips.2 with hcfb
    set packed := packCutsIntoBoards cfb b.length with hpacked
    have hpok : ∀ cs ∈ packed, cs.sum ≤ b.length ∧ cs ≠ [] :=
      fun cs hcs => packCutsIntoBoards_ok hcle cs hcs
    have hpne : packed ≠ [] :=
      packCutsIntoBoards_ne_nil (by simpa [List.isEmpty_iff] using hem)
    have hused : 0 < packed.length := List.length_pos.2 hpne
    constructor
    · show st.totalCost + (packed.length : Int) * b.price = _
      rw [planCost_updList (priceAt boards) bips.1 packed.length st.boardPlan]
      rw [hinv.cost_eq, hprice]
    · intro e he cs hcs
      rcases mem_updList _ _ _ _ _ he with he2 | he2
      · exact hinv.plans_ok e he2 cs hcs
      · rcases he2 with ⟨hk, hv⟩
        obtain ⟨k, v⟩ := e
        simp only at hk hv
        subst hk
        subst hv
        rcases List.mem_append.1 hcs with hcs2 | hcs2
        · by_cases hbim : bips.1 ∈ st.cutPlan.map Prod.fst
          · exact hinv.plans_ok _ (lookupD_mem [] hbim) cs hcs2
          · rw [lookupD_of_not_mem [] hbim] at hcs2
            simp at hcs2
        · rw [hlena]
          rcases hpok cs hcs2 with ⟨h1, h2⟩
          exact ⟨h1, h2⟩
    · intro e he
      rcases mem_updList _ _ _ _ _ he with he2 | he2
      · exact hinv.waste_ok e he2
      · rcases he2 with ⟨hk, hv⟩
        obtain ⟨k, v⟩ := e
        simp only at hk hv
        subst hk
        subst hv
        have hw : 0 ≤ (packed.map fun cs => b.length - cs.sum).sum := by
          refine List.sum_nonneg ?_
          intro x hx
          rcases List.mem_map.1 hx with ⟨cs, hcs, rfl⟩
          have := (hpok cs hcs).1
          omega
        have hold : 0 ≤ lookupD st.wasteSummary bips.1 0 := by
          by_cases hbim : bips.1 ∈ st.wasteSummary.map Prod.fst
          · exact hinv.waste_ok _ (lookupD_mem 0 hbim)
          · rw [lookupD_of_not_mem 0 hbim]
        rw [← hpacked]
        omega
    · show (updList st.boardPlan bips.1 _ 0).map Prod.fst
        = (updList st.cutPlan bips.1 _ []).map Prod.fst
      by_cases hbim : bips.1 ∈ st.boardPlan.map Prod.fst
      · rw [updList_keys_of_mem _ _ _ _ hbim,
          updList_keys_of_mem _ _ _ _ (hinv.keys_bc ▸ hbim)]
        exact hinv.keys_bc
      · rw [updList_keys_of_not_mem _ _ _ _ hbim,
          updList_keys_of_not_mem _ _ _ _ (fun hc => hbim (hinv.keys_bc ▸ hc))]
        rw [hinv.keys_bc]
    · show (updList st.cutPlan bips.1 _ []).map Prod.fst
        = (updList st.wasteSummary bips.1 _ 0).map Prod.fst
      by_cases hbim : bips.1 ∈ st.cutPlan.map Prod.fst
      · rw [updList_keys_of_mem _ _ _ _ hbim,
          updList_keys_of_mem _ _ _ _ (hinv.keys_cw ▸ hbim)]
        exact hinv.keys_cw
      · rw [updList_keys_of_not_mem _ _ _ _ hbim,
          updList_keys_of_not_mem _ _ _ _ (fun hc => hbim (hinv.keys_cw ▸ hc))]
        rw [hinv.keys_cw]
    · intro e he
      rcases mem_updList _ _ _ _ _ he with he2 | he2
      · exact hinv.plan_pos e he2
      · rcases he2 with ⟨hk, hv⟩
        obtain ⟨k, v⟩ := e
        simp only at hk hv
        subst hk
        subst hv
        rw [← hpacked]
        omega
    · intro i
      by_cases hib : i = bips.1
      · subst hib
        rw [lookupD_updList_self, lookupD_updList_self, List.length_append]
        have halign := hinv.align bips.1
        rw [← hpacked]
        omega
      · rw [lookupD_updList_other _ _ _ _ _ (fun hc => hib hc.symm),
          lookupD_updList_other _ _ _ _ _ (fun hc => hib hc.symm)]
        exact hinv.align i

theorem foldl_applyBoardType_inv {boards : List Board} {d : Int × Int} {lens : List Int}
    {a : (Nat × Nat) → Nat} :
    ∀ (bp : List (Nat × List Pattern)) (st : OptResult),
      (∀ bips ∈ bp, ∃ b, (bips.1, b) ∈ groupBoards boards d ∧
        bips.2 = generateCuttingPatterns lens b.length) →
      StInv boards st →
      StInv boards (bp.foldl (applyBoardType (groupBoards boards d) a) st) := by
  intro bp
  induction bp with
  | nil => intro st _ hinv; exact hinv
  | cons bips rest ih =>
    intro st hfacts hinv
    rw [List.foldl_cons]
    exact ih _ (fun b2 hb2 => hfacts b2 (by simp [hb2]))
      (applyBoardType_inv (hfacts bips (by simp)) hinv)

theorem foldl_applyBoardType_count {boards : List Board} {d : Int × Int} {lens : List Int}
    {a : (Nat × Nat) → Nat} (l : Int) :
    ∀ (bp : List (Nat × List Pattern)) (st : OptResult),
      (∀ bips ∈ bp, ∃ b, (bips.1, b) ∈ groupBoards boards d ∧
        bips.2 = generateCuttingPatterns lens b.length) →
      ((bp.foldl (applyBoardType (groupBoards boards d) a) st).cutPlan.flatMap
          fun e => e.2.flatMap id).count l
        = ((st.cutPlan.flatMap fun e => e.2.flatMap id).count l)
          + (bp.map fun bips => (cutsForType a bips.1 bips.2).count l).sum := by
  intro bp
  induction bp with
  | nil => intro st _; simp
  | cons bips rest ih =>
    intro st hfacts
    rw [List.foldl_cons, ih _ (fun b2 hb2 => hfacts b2 (by simp [hb2]))]
    rw [applyBoardType_count (hfacts bips (by simp)) l]
    simp only [List.map_cons, List.sum_cons]
    omega

theorem processGroup_ok {cuts : List Cut} {boards : List Board}
    {solver : ILPProblem → Option ((Nat × Nat) → Nat)} {st st' : OptResult} {d : Int × Int}
    (h : processGroup cuts boards solver st d = .ok st') :
    ∃ a, solver (probOf cuts boards d) = some a ∧
      buildConstraints d
          (boardPatterns (groupBoards boards d)
            ((cutRequirements (groupCuts cuts d)).map Prod.fst))
          (cutRequirements (groupCuts cuts d))
        = .ok (probOf cuts boards d).constraints ∧
      st' = (boardPatterns (groupBoards boards d)
          ((cutRequirements (groupCuts cuts d)).map Prod.fst)).foldl
        (applyBoardType (groupBoards boards d) a) st := by
  simp only [processGroup] at h
  split at h
  · cases h
  · split at h
    · cases h
    · split at h
      · cases h
      · split at h
        · cases h
        · rename_i cons hbc
          split at h
          · cases h
          · rename_i a hsolve
            have hprob : probOf cuts boards d
                = ⟨patternVars (cutRequirements (groupCuts cuts d))
                    (boardPatterns (groupBoards boards d)
                      ((cutRequirements (groupCuts cuts d)).map Prod.fst)), cons,
                  objectiveTerms (cutRequirements (groupCuts cuts d))
                    (boardPatterns (groupBoards boards d)
                      ((cutRequirements (groupCuts cuts d)).map Prod.fst))
                    (groupBoards boards d)⟩ := by
              rw [probOf]
              simp only [hbc]
              rfl
            refine ⟨a, ?_, ?_, (Except.ok.inj h).symm⟩
            · rw [hprob]
              exact hsolve
            · rw [hprob]
              exact hbc

theorem group_count_eq {cuts : List Cut} {boards : List Board} {d : Int × Int}
    {a : (Nat × Nat) → Nat}
    (hbc : buildConstraints d
        (boardPatterns (groupBoards boards d)
          ((cutRequirements (groupCuts cuts d)).map Prod.fst))
        (cutRequirements (groupCuts cuts d))
      = .ok (probOf cuts boards d).constraints)
    (hfeas : Feasible (probOf cuts boards d) a) (l : Int) :
    (((boardPatterns (groupBoards boards d)
          ((cutRequirements (groupCuts cuts d)).map Prod.fst)).map
        fun bips => (cutsForType a bips.1 bips.2).count l).sum : Int)
      = lookupD (cutRequirements (groupCuts cuts d)) l 0 := by
  set req := cutRequirements (groupCuts cuts d) with hreq
  set bp := boardPatterns (groupBoards boards d) (req.map Prod.fst) with hbp
  by_cases hl : l ∈ req.map Prod.fst
  · have hmem : (l, lookupD req l 0) ∈ req := lookupD_mem 0 hl
    have hcons := buildConstraints_mem hbc _ hmem
    have hsum := hfeas.2 _ hcons
    have hsum2 : ((constraintTerms bp l).map fun tc => ((a tc.1 * tc.2 : Nat) : Int)).sum
        = lookupD req l 0 := hsum
    rw [← hsum2, ← cast_map_sum (fun tc => a tc.1 * tc.2) (constraintTerms bp l),
      constraintTerms_sum bp l a]
  · have hzero : ∀ bips ∈ bp, (cutsForType a bips.1 bips.2).count l = 0 := by
      intro bips hbips
      rw [List.count_eq_zero]
      intro hmem
      rcases mem_cutsForType hmem with ⟨p, hp, hlp⟩
      rcases boardPatterns_mem hbips with ⟨b, _, hpats⟩
      rw [hpats] at hp
      exact hl (gen_mem_lens hp hlp)
    rw [lookupD_of_not_mem 0 hl]
    have : (bp.map fun bips => (cutsForType a bips.1 bips.2).count l).sum = 0 := by
      rw [List.sum_eq_zero]
      intro x hx
      rcases List.mem_map.1 hx with ⟨bips, hbips, rfl⟩
      exact hzero bips hbips
    rw [this]
    rfl

theorem processGroup_inv {cuts : List Cut} {boards : List Board}
    {solver : ILPProblem → Option ((Nat × Nat) → Nat)} {st st' : OptResult} {d : Int × Int}
    (hinv : StInv boards st) (h : processGroup cuts boards solver st d = .ok st') :
    StInv boards st' := by
  rcases processGroup_ok h with ⟨a, _, _, hst'⟩
  rw [hst']
  exact foldl_applyBoardType_inv _ st
    (fun bips hbips => boardPatterns_mem hbips) hinv

theorem processGroup_count {cuts : List Cut} {boards : List Board}
    {solver : ILPProblem → Option ((Nat × Nat) → Nat)} {st st' : OptResult} {d : Int × Int}
    (hs : SolverOk solver) (h : processGroup cuts boards solver st d = .ok st') (l : Int) :
    (((st'.cutPlan.flatMap fun e => e.2.flatMap id).count l : Nat) : Int)
      = (((st.cutPlan.flatMap fun e => e.2.flatMap id).count l : Nat) : Int)
        + lookupD (cutRequirements (groupCuts cuts d)) l 0 := by
  rcases processGroup_ok h with ⟨a, hsolve, hbc, hst'⟩
  have hfeas := hs _ _ hsolve
  rw [hst']
  rw [foldl_applyBoardType_count l _ st (fun bips hbips => boardPatterns_mem hbips)]
  have hg := group_count_eq hbc hfeas l
  omega

theorem foldlM_groups_inv {cuts : List Cut} {boards : List Board}
    {solver : ILPProblem → Option ((Nat × Nat) → Nat)} :
    ∀ (ds : List (Int × Int)) (st res : OptResult),
      ds.foldlM (fun st d => processGroup cuts boards solver st d) st = .ok res →
      StInv boards st → StInv boards res := by
  intro ds
  induction ds with
  | nil =>
    intro st res h hinv
    rw [List.foldlM_nil] at h
    have h2 : st = res := Except.ok.inj h
    exact h2 ▸ hinv
  | cons d rest ih =>
    intro st res h hinv
    rw [List.foldlM_cons] at h
    match hpg : processGroup cuts boards solver st d with
    | .error e =>
      rw [hpg] at h
      have h2 : (Except.error e : Except OptError OptResult) = .ok res := h
      cases h2
    | .ok st1 =>
      rw [hpg] at h
      have h2 : rest.foldlM (fun st d => processGroup cuts boards solver st d) st1
          = .ok res := h
      exact ih st1 res h2 (processGroup_inv hinv hpg)

theorem foldlM_groups_count {cuts : List Cut} {boards : List Board}
    {solver : ILPProblem → Option ((Nat × Nat) → Nat)} (hs : SolverOk solver) (l : Int) :
    ∀ (ds : List (Int × Int)) (st res : OptResult),
      ds.foldlM (fun st d => processGroup cuts boards solver st d) st = .ok res →
      (((res.cutPlan.flatMap fun e => e.2.flatMap id).count l : Nat) : Int)
        = (((st.cutPlan.flatMap fun e => e.2.flatMap id).count l : Nat) : Int)
          + (ds.map fun d => lookupD (cutRequirements (groupCuts cuts d)) l 0).sum := by
  intro ds
  induction ds with
  | nil =>
    intro st res h
    rw [List.foldlM_nil] at h
    have h2 : st = res := Except.ok.inj h
    subst h2
    simp
  | cons d rest ih =>
    intro st res h
    rw [List.foldlM_cons] at h
    match hpg : processGroup cuts boards solver st d with
    | .error e =>
      rw [hpg] at h
      have h2 : (Except.error e : Except OptError OptResult) = .ok res := h
      cases h2
    | .ok st1 =>
      rw [hpg] at h
      have h2 : rest.foldlM (fun st d => processGroup cuts boards solver st d) st1
          = .ok res := h
      rw [ih st1 res h2, processGroup_count hs hpg l]
      simp only [List.map_cons, List.sum_cons]
      ring

theorem optimizeBoards_inv {cuts : List Cut} {boards : List Board}
    {solver : ILPProblem → Option ((Nat × Nat) → Nat)} {res : OptResult}
    (h : optimizeBoards cuts boards solver = .ok res) : StInv boards res := by
  rw [optimizeBoards] at h
  refine foldlM_groups_inv (crossSections cuts) _ res h ?_
  constructor <;> simp [lookupD]

/-- C1 (claim theorem below): the returned total cost is the board plan
priced against the input board sequence. -/
theorem optimizeBoards_cost {cuts : List Cut} {boards : List Board}
    {solver : ILPProblem → Option ((Nat × Nat) → Nat)} {res : OptResult}
    (h : optimizeBoards cuts boards solver = .ok res) :
    res.totalCost = (res.boardPlan.map fun e => (e.2 : Int) * priceAt boards e.1).sum :=
  (optimizeBoards_inv h).cost_eq

/-! ### Summing requirements over the cross-section partition -/

theorem sum_fun_add {β : Type} (f g : β → Int) :
    ∀ cs : List β, (cs.map fun c => f c + g c).sum = (cs.map f).sum + (cs.map g).sum := by
  intro cs
  induction cs with
  | nil => simp
  | cons c rest ih =>
    simp only [List.map_cons, List.sum_cons, ih]
    ring

theorem sum_sum_comm {α β : Type} (g : α → β → Int) :
    ∀ (ds : List α) (cs : List β),
      (ds.map fun d => (cs.map fun c => g d c).sum).sum
        = (cs.map fun c => (ds.map fun d => g d c).sum).sum := by
  intro ds
  induction ds with
  | nil => intro cs; simp
  | cons d rest ih =>
    intro cs
    simp only [List.map_cons, List.sum_cons, ih]
    rw [← sum_fun_add]

theorem sum_ite_single {α : Type} [DecidableEq α] (k : α) (v : Int) :
    ∀ ds : List α, ds.Nodup → k ∈ ds →
      (ds.map fun d => if k = d then v else 0).sum = v := by
  intro ds
  induction ds with
  | nil => intro _ h; simp at h
  | cons d rest ih =>
    intro hnd hk
    rcases List.nodup_cons.1 hnd with ⟨hd, hnd2⟩
    by_cases hkd : k = d
    · subst hkd
      simp only [List.map_cons, List.sum_cons, if_pos rfl]
      have : (rest.map fun d2 => if k = d2 then v else 0).sum = 0 := by
        rw [List.sum_eq_zero]
        intro x hx
        rcases List.mem_map.1 hx with ⟨d2, hd2, rfl⟩
        rw [if_neg]
        intro hc
        exact hd (hc ▸ hd2)
      rw [this]
      simp
    · simp only [List.map_cons, List.sum_cons, if_neg hkd]
      have hk2 : k ∈ rest := by
        rcases List.mem_cons.1 hk with h2 | h2
        · exact absurd h2 hkd
        · exact h2
      rw [ih hnd2 hk2]
      ring

theorem filter_map_sum_ite {β : Type} (p : β → Prop) [DecidablePred p] (f : β → Int) :
    ∀ cs : List β, ((cs.filter fun c => p c).map f).sum
      = (cs.map fun c => if p c then f c else 0).sum := by
  intro cs
  induction cs with
  | nil => simp
  | cons c rest ih =>
    by_cases hp : p c
    · rw [List.filter_cons_of_pos (by simpa using hp)]
      simp only [List.map_cons, List.sum_cons, if_pos hp, ih]
    · rw [List.filter_cons_of_neg (by simpa using hp)]
      simp only [List.map_cons, List.sum_cons, if_neg hp, ih]
      ring

theorem groups_requirement_sum (cuts : List Cut) (l : Int) :
    ((crossSections cuts).map fun d =>
        lookupD (cutRequirements (groupCuts cuts d)) l 0).sum
      = ((cuts.filter fun c => c.length = l).map Cut.quantity).sum := by
  have h1 : ∀ d, lookupD (cutRequirements (groupCuts cuts d)) l 0
      = (cuts.map fun c => if (c.width, c.height) = d then
          (if c.length = l then c.quantity else 0) else 0).sum := by
    intro d
    rw [cutRequirements_lookupD,
      filter_map_sum_ite (fun c : Cut => c.length = l) Cut.quantity (groupCuts cuts d)]
    rw [groupCuts]
    rw [filter_map_sum_ite (fun c : Cut => (c.width, c.height) = d)
      (fun c : Cut => if c.length = l then c.quantity else 0) cuts]
  have h2 : ((crossSections cuts).map fun d =>
      lookupD (cutRequirements (groupCuts cuts d)) l 0).sum
      = ((crossSections cuts).map fun d => (cuts.map fun c =>
          if (c.width, c.height) = d then
            (if c.length = l then c.quantity else 0) else 0).sum).sum := by
    congr 1
    exact List.map_congr_left fun d _ => h1 d
  rw [h2, sum_sum_comm]
  rw [filter_map_sum_ite (fun c : Cut => c.length = l) Cut.quantity cuts]
  congr 1
  refine List.map_congr_left ?_
  intro c hc
  have hmem : (c.width, c.height) ∈ crossSections cuts := by
    rw [crossSections]
    exact (mem_firstKeys _ _).2 (List.mem_map.2 ⟨c, hc, rfl⟩)
  have hnd : (crossSections cuts).Nodup := by
    rw [crossSections]
    exact firstKeys_nodup _
  exact sum_ite_single (c.width, c.height) _ (crossSections cuts) hnd hmem

theorem optimizeBoards_count {cuts : List Cut} {boards : List Board}
    {solver : ILPProblem → Option ((Nat × Nat) → Nat)} {res : OptResult}
    (hs : SolverOk solver) (h : optimizeBoards cuts boards solver = .ok res) (l : Int) :
    (((res.cutPlan.flatMap fun e => e.2.flatMap id).count l : Nat) : Int)
      = ((cuts.filter fun c => c.length = l).map Cut.quantity).sum := by
  rw [optimizeBoards] at h
  have := foldlM_groups_count hs l (crossSections cuts) _ res h
  rw [this]
  simp only [OptResult.cutPlan]
  rw [groups_requirement_sum cuts l]
  simp

/-! ### Evaluation clones: pointwise equality with the embedding -/

theorem genLoopR_eq {stepR : Int → Pattern → Nat → List Pattern → Nat → (List Pattern × Nat)}
    {step : Int → Pattern → Nat → List Pattern → List Pattern}
    (hstep : ∀ r cur i acc, stepR r cur i acc.reverse acc.length
      = ((step r cur i acc).reverse, (step r cur i acc).length)) :
    ∀ (ps : List (Nat × Int)) (r : Int) (cur : Pattern) (acc : List Pattern),
      genLoopR stepR r cur ps acc.reverse acc.length
        = ((genLoop step r cur ps acc).reverse, (genLoop step r cur ps acc).length) := by
  intro ps
  induction ps with
  | nil => intro r cur acc; rfl
  | cons q rest ih =>
    intro r cur acc
    obtain ⟨i, c⟩ := q
    rw [genLoopR, genLoop]
    by_cases hc : c ≤ r
    · rw [if_pos hc, if_pos hc, hstep]
      exact ih r cur _
    · rw [if_neg hc, if_neg hc]
      exact ih r cur acc

theorem genRecR_eq (lens : List Int) (maxP : Nat) :
    ∀ (fuel : Nat) (r : Int) (cur : Pattern) (start : Nat) (acc : List Pattern),
      genRecR lens maxP fuel r cur start acc.reverse acc.length
        = ((genRec lens maxP fuel r cur start acc).reverse,
            (genRec lens maxP fuel r cur start acc).length) := by
  intro fuel
  induction fuel with
  | zero => intro r cur start acc; rfl
  | succ fl ih =>
    intro r cur start acc
    rw [genRecR, genRec]
    by_cases hcap : maxP ≤ acc.length
    · rw [if_pos hcap, if_pos hcap]
    · rw [if_neg hcap, if_neg hcap]
      by_cases hce : cur.isEmpty
      · rw [if_pos hce, if_pos hce, if_pos hce]
        exact genLoopR_eq (fun r2 c2 i2 a2 => ih r2 c2 i2 a2) _ r cur acc
      · rw [if_neg hce, if_neg hce, if_neg hce]
        have h1 : cur :: acc.reverse = (acc ++ [cur]).reverse := by simp
        have h2 : acc.length + 1 = (acc ++ [cur]).length := by simp
        rw [h1, h2]
        exact genLoopR_eq (fun r2 c2 i2 a2 => ih r2 c2 i2 a2) _ r cur (acc ++ [cur])

/-! ### Error inversion for the NoPatternForLength branch -/

theorem foldlM_error {α σ : Type} (f : σ → α → Except OptError σ) :
    ∀ (l : List α) (init : σ) (e : OptError), l.foldlM f init = .error e →
      ∃ d ∈ l, ∃ st, f st d = .error e := by
  intro l
  induction l with
  | nil =>
    intro init e h
    simp [List.foldlM, pure, Except.pure] at h
  | cons a rest ih =>
    intro init e h
    rw [List.foldlM_cons] at h
    cases hfa : f init a with
    | error e2 =>
      rw [hfa] at h
      have he : e2 = e := by
        simpa [Bind.bind, Except.bind] using h
      exact ⟨a, by simp, init, by rw [hfa, he]⟩
    | ok st =>
      rw [hfa] at h
      have h2 : rest.foldlM f st = .error e := by
        simpa [Bind.bind, Except.bind] using h
      rcases ih st e h2 with ⟨d, hd, st2, hst2⟩
      exact ⟨d, by simp [hd], st2, hst2⟩

theorem buildConstraints_error_noPattern {d : Int × Int} {bp : List (Nat × List Pattern)} :
    ∀ {req : List (Int × Int)} {l w h : Int},
      buildConstraints d bp req = .error (.noPatternForLength l w h) →
      (∃ qty, (l, qty) ∈ req) ∧ constraintTerms bp l = [] := by
  intro req
  induction req with
  | nil =>
    intro l w h hbc
    rw [buildConstraints] at hbc
    cases hbc
  | cons e2 rest ih =>
    intro l w h hbc
    obtain ⟨len, qty⟩ := e2
    rw [buildConstraints] at hbc
    by_cases hte : (constraintTerms bp len).isEmpty
    · rw [if_pos hte] at hbc
      have hlen : len = l := by
        cases hbc
        rfl
      subst hlen
      exact ⟨⟨qty, by simp⟩, List.isEmpty_iff.1 hte⟩
    · rw [if_neg hte] at hbc
      cases hrest : buildConstraints d bp rest with
      | error er =>
        rw [hrest] at hbc
        have her : er = OptError.noPatternForLength l w h := by
          simpa [Bind.bind, Except.bind] using hbc
        rcases ih (hrest.trans (by rw [her])) with ⟨⟨q2, hq2⟩, hterms⟩
        exact ⟨⟨q2, by simp [hq2]⟩, hterms⟩
      | ok cs2 =>
        rw [hrest] at hbc
        simp [Bind.bind, Except.bind] at hbc

theorem processGroup_error_noPattern {cuts : List Cut} {boards : List Board}
    {solver : ILPProblem → Option ((Nat × Nat) → Nat)} {st : OptResult} {d : Int × Int}
    {l w h : Int}
    (hp : processGroup cuts boards solver st d = .error (.noPatternForLength l w h)) :
    ¬(groupBoards boards d).isEmpty ∧
      ((groupCuts cuts d).find? fun c =>
          decide (pythonMax ((groupBoards boards d).map fun ib => ib.2.length) < c.length))
        = none ∧
      buildConstraints d
          (boardPatterns (groupBoards boards d)
            ((cutRequirements (groupCuts cuts d)).map Prod.fst))
          (cutRequirements (groupCuts cuts d))
        = .error (.noPatternForLength l w h) := by
  simp only [processGroup] at hp
  split at hp
  · simp at hp
  · rename_i hne
    split at hp
    · simp at hp
    · rename_i hfind
      split at hp
      · simp at hp
      · split at hp
        · rename_i e he
          refine ⟨by simpa using hne, hfind, ?_⟩
          have h2 : e = OptError.noPatternForLength l w h := by
            simpa using hp
          rw [he, h2]
        · split at hp
          · simp at hp
          · simp at hp

theorem constraintTerms_ne_nil {bp : List (Nat × List Pattern)} {l : Int} {bi : Nat}
    {pats : List Pattern} {p : Pattern} (hbp : (bi, pats) ∈ bp) (hp : p ∈ pats)
    (hl : l ∈ p) : constraintTerms bp l ≠ [] := by
  rcases List.mem_iff_getElem?.1 hp with ⟨i, hi⟩
  have henum : (i, p) ∈ pats.enum := List.mem_enum_iff_getElem?.2 (by simpa using hi)
  have hcount : 0 < p.count l := List.count_pos_iff.2 hl
  have hmemb : (((bi, i), p.count l) : (Nat × Nat) × Nat) ∈ constraintTerms bp l := by
    refine List.mem_flatMap.2 ⟨(bi, pats), hbp, List.mem_filterMap.2 ⟨(i, p), henum, ?_⟩⟩
    simp only
    rw [if_pos hcount]
  exact List.ne_nil_of_mem hmemb

/-! ### Claim theorems -/

theorem solverW_ok : SolverOk solverW := by
  intro p a h
  rw [solverW] at h
  by_cases hp : p = probOf cutsW boardsW (1, 1)
  · rw [if_pos hp] at h
    have ha : a = fun _ => 1 := (Option.some.inj h).symm
    subst hp
    subst ha
    decide
  · rw [if_neg hp] at h
    cases h

/-- **C1.** For every input on which `optimize_boards` returns a result, the
returned `total_cost` equals the sum over all board indices in `board_plan`
of the purchase count times the price of the board at that index in the
input `boards` sequence. -/
theorem C1_total_cost_eq_plan_price (cuts : List Cut) (boards : List Board)
    (solver : ILPProblem → Option ((Nat × Nat) → Nat)) (res : OptResult)
    (h : optimizeBoards cuts boards solver = .ok res) :
    res.totalCost = (res.boardPlan.map fun e => (e.2 : Int) * priceAt boards e.1).sum :=
  (optimizeBoards_inv h).cost_eq

/-- Witness for C1 at a concrete input. -/
theorem C1_total_cost_eq_plan_price_witness :
    optimizeBoards cutsW boardsW solverW = .ok resW ∧
      resW.totalCost
        = (resW.boardPlan.map fun e => (e.2 : Int) * priceAt boardsW e.1).sum :=
  ⟨rfl, C1_total_cost_eq_plan_price cutsW boardsW solverW resW rfl⟩

/-- **C2.** For every input on which `optimize_boards` returns a result, the
multiset of cut lengths across all physical boards of the cut plan equals
exactly the summed `CutRequest` quantities per length: for every length `l`,
the number of occurrences of `l` in the whole cut plan equals the total
requested quantity of `l`. -/
theorem C2_cut_multiset_exact (cuts : List Cut) (boards : List Board)
    (solver : ILPProblem → Option ((Nat × Nat) → Nat)) (res : OptResult)
    (hs : SolverOk solver) (h : optimizeBoards cuts boards solver = .ok res) (l : Int) :
    (((res.cutPlan.flatMap fun e => e.2.flatMap id).count l : Nat) : Int)
      = ((cuts.filter fun c => c.length = l).map Cut.quantity).sum :=
  optimizeBoards_count hs h l

/-- Witness for C2 at a concrete input. -/
theorem C2_cut_multiset_exact_witness :
    SolverOk solverW ∧ optimizeBoards cutsW boardsW solverW = .ok resW ∧
      (((resW.cutPlan.flatMap fun e => e.2.flatMap id).count 2 : Nat) : Int)
        = ((cutsW.filter fun c => c.length = 2).map Cut.quantity).sum :=
  ⟨solverW_ok, rfl,
    C2_cut_multiset_exact cutsW boardsW solverW resW solverW_ok rfl 2⟩

/-- **C4.** Every physical board of the returned cut plan fits on its board
type: the sum of its cuts is at most the board's length and the waste is
non-negative; consequently every waste summary entry is non-negative. -/
theorem C4_physical_boards_fit (cuts : List Cut) (boards : List Board)
    (solver : ILPProblem → Option ((Nat × Nat) → Nat)) (res : OptResult)
    (h : optimizeBoards cuts boards solver = .ok res) :
    (∀ e ∈ res.cutPlan, ∀ cs ∈ e.2,
        cs.sum ≤ lengthAt boards e.1 ∧ 0 ≤ lengthAt boards e.1 - cs.sum) ∧
      ∀ e ∈ res.wasteSummary, 0 ≤ e.2 := by
  have hinv := optimizeBoards_inv h
  refine ⟨fun e he cs hcs => ?_, hinv.waste_ok⟩
  have h1 := (hinv.plans_ok e he cs hcs).1
  exact ⟨h1, by omega⟩

/-- Witness for C4 at a concrete input. -/
theorem C4_physical_boards_fit_witness :
    optimizeBoards cutsW boardsW solverW = .ok resW ∧
      ((∀ e ∈ resW.cutPlan, ∀ cs ∈ e.2,
          cs.sum ≤ lengthAt boardsW e.1 ∧ 0 ≤ lengthAt boardsW e.1 - cs.sum) ∧
        ∀ e ∈ resW.wasteSummary, 0 ≤ e.2) :=
  ⟨rfl, C4_physical_boards_fit cutsW boardsW solverW resW rfl⟩

/-- **C9.** The three result maps share exactly the same board indices, every
purchase count is positive, and the count recorded for an index equals the
number of physical boards listed for it in the cut plan. -/
theorem C9_plan_alignment (cuts : List Cut) (boards : List Board)
    (solver : ILPProblem → Option ((Nat × Nat) → Nat)) (res : OptResult)
    (h : optimizeBoards cuts boards solver = .ok res) :
    res.boardPlan.map Prod.fst = res.cutPlan.map Prod.fst ∧
      res.cutPlan.map Prod.fst = res.wasteSummary.map Prod.fst ∧
      (∀ e ∈ res.boardPlan, 0 < e.2) ∧
      ∀ i, lookupD res.boardPlan i 0 = (lookupD res.cutPlan i []).length := by
  have hinv := optimizeBoards_inv h
  exact ⟨hinv.keys_bc, hinv.keys_cw, hinv.plan_pos, hinv.align⟩

/-- Witness for C9 at a concrete input. -/
theorem C9_plan_alignment_witness :
    optimizeBoards cutsW boardsW solverW = .ok resW ∧
      (resW.boardPlan.map Prod.fst = resW.cutPlan.map Prod.fst ∧
        resW.cutPlan.map Prod.fst = resW.wasteSummary.map Prod.fst ∧
        (∀ e ∈ resW.boardPlan, 0 < e.2) ∧
        ∀ i, lookupD resW.boardPlan i 0 = (lookupD resW.cutPlan i []).length) :=
  ⟨rfl, C9_plan_alignment cutsW boardsW solverW resW rfl⟩

/-- **C10.** With an empty cuts list, `optimize_boards` succeeds for every
boards sequence (and every solver), returning empty plans and cost 0. -/
theorem C10_empty_cuts_trivial_result (boards : List Board)
    (solver : ILPProblem → Option ((Nat × Nat) → Nat)) :
    optimizeBoards [] boards solver = .ok ⟨[], [], 0, []⟩ := rfl

/-- **C6.** For every list of cut lengths and board length,
`_generate_cutting_patterns` returns pairwise-distinct non-empty multisets,
each using at most the board length of material, contains at most the cap of
1000 patterns, and is sorted by material used in descending order. -/
theorem C6_pattern_generator_properties (cutLengths : List Int) (boardLength : Int) :
    (∀ p ∈ generateCuttingPatterns cutLengths boardLength, p ≠ [] ∧
        patternMaterial p ≤ boardLength) ∧
      ((generateCuttingPatterns cutLengths boardLength).map Multiset.ofList).Nodup ∧
      (generateCuttingPatterns cutLengths boardLength).length ≤ 1000 ∧
      (generateCuttingPatterns cutLengths boardLength).Pairwise matGe := by
  refine ⟨?_, ?_, ?_, ?_⟩
  · intro p hp
    have hg := generateCuttingPatterns_good hp
    exact ⟨hg.ne, hg.sum_le⟩
  · refine (generateCuttingPatterns_nodup cutLengths boardLength 1000).map_on ?_
    intro p hp q hq hpq
    have hperm : p.Perm q := Multiset.coe_eq_coe.1 hpq
    exact List.eq_of_perm_of_sorted hperm
      (generateCuttingPatterns_good hp).sorted (generateCuttingPatterns_good hq).sorted
  · exact generateCuttingPatterns_length_le cutLengths boardLength 1000
  · exact List.sorted_insertionSort matGe _

theorem solverZeroQty_ok : SolverOk solverZeroQty := by
  intro p a h
  rw [solverZeroQty] at h
  by_cases hp : p = probOf cutsZeroQty boardsZeroQty (1, 1)
  · rw [if_pos hp] at h
    have ha : a = fun _ => 0 := (Option.some.inj h).symm
    subst hp
    subst ha
    decide
  · rw [if_neg hp] at h
    cases h

/-- **C3 counterexample.** The claim says a non-positive quantity makes
`optimize_boards` fail with `InvalidInput`.  It does not: with the single
cut request `{1×1, length 5, quantity 0}` (and an admissible solver for the
resulting all-zero model) the call returns a result.  No validation of
lengths or quantities exists anywhere in `optimize_boards`. -/
theorem C3_counterexample_zero_quantity_accepted :
    SolverOk solverZeroQty ∧
      (optimizeBoards cutsZeroQty boardsZeroQty solverZeroQty).isOk = true :=
  ⟨solverZeroQty_ok, rfl⟩

/-- **C3 (amended).** `optimize_boards` performs no validation of cut lengths
or quantities and has no `InvalidInput` error at all: on the quantity-0 input
it succeeds, returning empty plans and total cost 0. -/
theorem C3_amended_no_input_validation :
    optimizeBoards cutsZeroQty boardsZeroQty solverZeroQty = .ok ⟨[], [], 0, []⟩ := rfl

/-- **C8 counterexample.** The 2×2 cut of length 100 exceeds its group's
maximum board length 50, so the claim demands a `CutExceedsMaxBoard` failure;
but the 1×1 group appears first among the cuts and has no offerings, so the
call fails with `NoBoardsForDimension` instead. -/
theorem C8_counterexample_other_group_fails_first :
    (⟨2, 2, 100, 1⟩ : Cut) ∈ groupCuts cutsX (2, 2) ∧
      pythonMax ((groupBoards boardsX (2, 2)).map fun ib => ib.2.length) < 100 ∧
      optimizeBoards cutsX boardsX noSolver = .error (.noBoardsForDimension 1 1) :=
  ⟨by decide, by decide, rfl⟩

/-- **C8 (amended).** As stated the claim is false (see the counterexample:
an earlier cross-section group can fail first with a different error).  The
repaired statement: whenever the FIRST cross-section group — the group of the
first cut in the input — has at least one board offering and contains a cut
strictly exceeding that group's maximum board length, `optimize_boards`
fails with `CutExceedsMaxBoard` naming the first such offending cut's length
and the group's maximum available board length. -/
theorem C8_amended_first_group_offender (cuts : List Cut) (boards : List Board)
    (solver : ILPProblem → Option ((Nat × Nat) → Nat)) (c0 c : Cut) (rest : List Cut)
    (hcuts : cuts = c0 :: rest)
    (hboards : (groupBoards boards (c0.width, c0.height)).isEmpty = false)
    (hfind : (groupCuts cuts (c0.width, c0.height)).find? (fun c2 =>
        decide (pythonMax ((groupBoards boards (c0.width, c0.height)).map
          fun ib => ib.2.length) < c2.length)) = some c) :
    optimizeBoards cuts boards solver
      = .error (.cutExceedsMaxBoard c.length
          (pythonMax ((groupBoards boards (c0.width, c0.height)).map
            fun ib => ib.2.length)) c0.width c0.height) := by
  subst hcuts
  have hpg : processGroup (c0 :: rest) boards solver ⟨[], [], 0, []⟩ (c0.width, c0.height)
      = .error (.cutExceedsMaxBoard c.length
          (pythonMax ((groupBoards boards (c0.width, c0.height)).map
            fun ib => ib.2.length)) c0.width c0.height) := by
    simp only [processGroup, hboards, Bool.false_eq_true, if_false]
    rw [hfind]
  rw [optimizeBoards, crossSections, List.map_cons, firstKeys, List.foldlM_cons, hpg]
  rfl

/-- Witness for the amended C8 at a concrete input. -/
theorem C8_amended_first_group_offender_witness :
    cutsY = (⟨2, 2, 100, 1⟩ : Cut) :: [] ∧
      (groupBoards boardsX (2, 2)).isEmpty = false ∧
      (groupCuts cutsY (2, 2)).find? (fun c2 =>
        decide (pythonMax ((groupBoards boardsX (2, 2)).map
          fun ib => ib.2.length) < c2.length)) = some ⟨2, 2, 100, 1⟩ ∧
      optimizeBoards cutsY boardsX noSolver
        = .error (.cutExceedsMaxBoard 100 50 2 2) :=
  ⟨rfl, rfl, rfl,
    C8_amended_first_group_offender cutsY boardsX noSolver
      ⟨2, 2, 100, 1⟩ ⟨2, 2, 100, 1⟩ [] rfl rfl rfl⟩

set_option maxRecDepth 40000 in
set_option maxHeartbeats 2000000 in
theorem solverMono_ok : SolverOk solverMono := by
  intro p a h
  rw [solverMono] at h
  by_cases h1 : p = probOf cutsBase boardsMono (1, 1)
  · rw [if_pos h1] at h
    have ha : a = aBase := (Option.some.inj h).symm
    subst h1
    subst ha
    decide
  · rw [if_neg h1] at h
    by_cases h2 : p = probOf cutsMore boardsMono (1, 1)
    · rw [if_pos h2] at h
      have ha : a = aMore := (Option.some.inj h).symm
      subst h2
      subst ha
      decide
    · rw [if_neg h2] at h
      cases h

set_option maxRecDepth 40000 in
set_option maxHeartbeats 2000000 in
/-- **C7 (code bug).** Increasing a quantity can strictly DECREASE the
returned `total_cost`, contradicting the claimed monotonicity (and the
code's own promise of globally optimal cost): on `cutsBase`
(5×1, 4×2, 3×1, 2×2 over boards 10@100 and 22@201) the unique optimal
assignment costs 200, but best-fit-decreasing re-packs its flattened bag
`[5,4,4,3,2,2]` into three boards, so the call reports 300; raising the
length-2 quantity to 3 makes the single 22-board (cost 201) the unique
optimum, and the call reports 201 < 300. -/
theorem C7_bug_cost_decreases_when_quantity_increases :
    SolverOk solverMono ∧
      optimizeBoards cutsBase boardsMono solverMono = .ok resBase ∧
      optimizeBoards cutsMore boardsMono solverMono = .ok resMore ∧
      resMore.totalCost < resBase.totalCost :=
  ⟨solverMono_ok, rfl, rfl, by decide⟩

set_option maxRecDepth 100000 in
set_option maxHeartbeats 16000000 in
/-- **C5 counterexample.** The claim says that on inputs passing the
partitioner's validation the `NoPatternForLength` branch is never taken.
It is: on `cutsTrunc` (required lengths 1000, 1001 and the powers 512 … 8,
all valid for the single 2000-length board) the backtracking enumeration
dives into the subtree of patterns containing 1001 and fills the
1000-pattern cap there, so no generated pattern contains the length 1000
and `optimize_boards` raises `NoPatternForLength` for it. -/
theorem C5_counterexample_cap_starves_length :
    optimizeBoards cutsTrunc boardsTrunc noSolver
      = .error (.noPatternForLength 1000 1 1) := by
  have hsort : sortDesc (((cutRequirements (groupCuts cutsTrunc (1, 1))).map Prod.fst).dedup)
      = [1001, 1000, 512, 256, 128, 64, 32, 16, 8] := rfl
  have e2 : (genRecR [1001, 1000, 512, 256, 128, 64, 32, 16, 8] 1000 (1000 + 2)
      2000 [] 0 [] 0).2 = 1000 := rfl
  have e1 : ((genRecR [1001, 1000, 512, 256, 128, 64, 32, 16, 8] 1000 (1000 + 2)
      2000 [] 0 [] 0).1.filter fun p => 0 < p.count 1000).isEmpty = true := rfl
  have hR : genRecR [1001, 1000, 512, 256, 128, 64, 32, 16, 8] 1000 (1000 + 2) 2000 [] 0 [] 0
      = (rawTrunc.reverse, rawTrunc.length) := by
    have h := genRecR_eq [1001, 1000, 512, 256, 128, 64, 32, 16, 8] 1000 (1000 + 2) 2000 [] 0 []
    simpa only [List.reverse_nil, List.length_nil] using h
  rw [hR] at e1 e2
  dsimp only at e1 e2
  have hlen : rawTrunc.length = 1000 := e2
  have hcount : ∀ p ∈ rawTrunc, p.count 1000 = 0 := by
    intro p hp
    have h1 : rawTrunc.reverse.filter (fun p => decide (0 < p.count 1000)) = [] :=
      List.isEmpty_iff.1 e1
    have h2 := List.filter_eq_nil_iff.1 h1 p (List.mem_reverse.2 hp)
    exact List.count_eq_zero.2 (by simpa using h2)
  have hgen : generateCuttingPatterns
      ((cutRequirements (groupCuts cutsTrunc (1, 1))).map Prod.fst) 2000 1000
      = rawTrunc.insertionSort matGe := by
    rw [generateCuttingPatterns, hsort]
    rfl
  have hperm : (rawTrunc.insertionSort matGe).Perm rawTrunc :=
    List.perm_insertionSort matGe rawTrunc
  have hglen : (rawTrunc.insertionSort matGe).length = 1000 := by
    rw [hperm.length_eq, hlen]
  have hgall : ∀ p ∈ rawTrunc.insertionSort matGe, p.count 1000 = 0 := fun p hp =>
    hcount p (hperm.mem_iff.1 hp)
  obtain ⟨g0, gs, hsm⟩ : ∃ g0 gs, rawTrunc.insertionSort matGe = g0 :: gs := by
    cases hsm2 : rawTrunc.insertionSort matGe with
    | nil => rw [hsm2] at hglen; simp at hglen
    | cons a l => exact ⟨a, l, rfl⟩
  rw [hsm] at hgall hgen
  have hbp : boardPatterns (groupBoards boardsTrunc (1, 1))
      ((cutRequirements (groupCuts cutsTrunc (1, 1))).map Prod.fst)
      = [(0, g0 :: gs)] := by
    rw [boardPatterns, show groupBoards boardsTrunc (1, 1)
      = [((0 : Nat), (⟨1, 1, 2000, 1⟩ : Board))] from rfl]
    simp only [List.map_cons, List.map_nil]
    rw [hgen]
    rfl
  have hct : constraintTerms [(0, g0 :: gs)] 1000 = [] := by
    rw [constraintTerms]
    simp only [List.flatMap_cons, List.flatMap_nil, List.append_nil]
    rw [List.filterMap_eq_nil_iff]
    intro pip hpip
    have h2 : pip.2 ∈ g0 :: gs := enum_snd_mem hpip
    have h3 := hgall pip.2 h2
    simp [h3]
  have hreq : cutRequirements (groupCuts cutsTrunc (1, 1))
      = [(1000, 1), (1001, 1), (512, 1), (256, 1), (128, 1), (64, 1), (32, 1),
          (16, 1), (8, 1)] := rfl
  have hbc : buildConstraints (1, 1) [(0, g0 :: gs)]
      [(1000, 1), (1001, 1), (512, 1), (256, 1), (128, 1), (64, 1), (32, 1),
        (16, 1), (8, 1)]
      = .error (.noPatternForLength 1000 1 1) := by
    rw [buildConstraints]
    simp only [hct]
    rfl
  have hpg : processGroup cutsTrunc boardsTrunc noSolver ⟨[], [], 0, []⟩ (1, 1)
      = .error (.noPatternForLength 1000 1 1) := by
    simp only [processGroup]
    rw [hbp, hreq, hbc]
    rfl
  rw [optimizeBoards, show crossSections cutsTrunc = [(1, 1)] from rfl]
  simp only [List.foldlM_cons, List.foldlM_nil]
  rw [hpg]
  rfl

/-- **C5 (amended).** The defensive `NoPatternForLength` branch is
unreachable on validated inputs PROVIDED no group's pattern enumeration is
truncated by the 1000-pattern cap: if for every cross-section the
enumeration for the group's maximum board length yields fewer than 1000
patterns, `optimize_boards` never fails with `NoPatternForLength`. -/
theorem C5_amended_no_starvation_unless_capped (cuts : List Cut) (boards : List Board)
    (solver : ILPProblem → Option ((Nat × Nat) → Nat))
    (hcap : ∀ d ∈ crossSections cuts,
      (generateCuttingPatterns ((cutRequirements (groupCuts cuts d)).map Prod.fst)
          (pythonMax ((groupBoards boards d).map fun ib => ib.2.length)) 1000).length < 1000)
    (l w h : Int) :
    optimizeBoards cuts boards solver ≠ .error (.noPatternForLength l w h) := by
  intro hopt
  rw [optimizeBoards] at hopt
  obtain ⟨d, hd, st, hpg⟩ := foldlM_error _ _ _ _ hopt
  obtain ⟨hne, hfind, hbc⟩ := processGroup_error_noPattern hpg
  obtain ⟨⟨qty, hqty⟩, hterms⟩ := buildConstraints_error_noPattern hbc
  have hlkey : l ∈ (cutRequirements (groupCuts cuts d)).map Prod.fst :=
    List.mem_map.2 ⟨(l, qty), hqty, rfl⟩
  have hkey2 := cutRequirements_keys_sub (groupCuts cuts d) [] l (by
    rw [cutRequirements] at hlkey
    exact hlkey)
  rcases hkey2 with habs | ⟨c, hcg, hcl⟩
  · simp at habs
  have hval := List.find?_eq_none.1 hfind c hcg
  have hle : l ≤ pythonMax ((groupBoards boards d).map fun ib => ib.2.length) := by
    rw [← hcl]
    simpa using hval
  obtain ⟨p, hpmem, hlp⟩ := generateCuttingPatterns_mem_single hlkey hle (hcap d hd)
  have hmapne : ((groupBoards boards d).map fun ib => ib.2.length) ≠ [] := by
    intro h0
    rw [List.map_eq_nil_iff] at h0
    rw [h0] at hne
    simp at hne
  obtain ⟨ib, hib, hiblen⟩ := List.mem_map.1 (pythonMax_mem _ hmapne)
  have hgen : p ∈ generateCuttingPatterns
      ((cutRequirements (groupCuts cuts d)).map Prod.fst) ib.2.length 1000 := by
    rw [hiblen]
    exact hpmem
  have hbpmem : (ib.1, generateCuttingPatterns
        ((cutRequirements (groupCuts cuts d)).map Prod.fst) ib.2.length 1000) ∈
      boardPatterns (groupBoards boards d)
        ((cutRequirements (groupCuts cuts d)).map Prod.fst) := by
    rw [boardPatterns]
    refine List.mem_filter.2 ⟨List.mem_map.2 ⟨ib, hib, rfl⟩, ?_⟩
    have hnn : generateCuttingPatterns
        ((cutRequirements (groupCuts cuts d)).map Prod.fst) ib.2.length 1000 ≠ [] :=
      List.ne_nil_of_mem hgen
    simpa using hnn
  exact constraintTerms_ne_nil hbpmem hgen hlp hterms

/-- **C5 amended, witness.** The single-cut witness input has one group
whose enumeration yields one pattern (far below the cap), so the amended
theorem applies and rules out `NoPatternForLength`. -/
theorem C5_amended_no_starvation_unless_capped_witness :
    (∀ d ∈ crossSections cutsW,
      (generateCuttingPatterns ((cutRequirements (groupCuts cutsW d)).map Prod.fst)
          (pythonMax ((groupBoards boardsW d).map fun ib => ib.2.length)) 1000).length < 1000) ∧
      optimizeBoards cutsW boardsW solverW ≠ .error (.noPatternForLength 5 1 1) :=
  ⟨by decide, C5_amended_no_starvation_unless_capped cutsW boardsW solverW (by decide) 5 1 1⟩
